import Mathlib

/-!
Verification of the `cachelru` LRU cache (src/cache.rs).

The Rust type `Cache<K, V>` holds a `HashMap<K, (V, Node<K>)>` (here an
association list with unique keys, looked up by first occurrence), a
`capacity : usize`, and `head`/`tail : Option<K>` delimiting a doubly linked
recency chain whose links are stored as keys inside each `Node`.

Every place the Rust code calls `.unwrap()` on a map lookup is modelled by an
`Option`-returning operation: `none` models a panic.  File I/O is modelled by
passing the file's contents explicitly: `none` for a missing file, and
`some lines` for an existing file with the given lines (each a `List Char`,
mirroring the Rust `String` of one line without its newline).
-/

namespace LRU

/-- A node in the doubly linked recency list (`struct Node<K>` in cache.rs):
two optional key references to the neighbours. -/
structure Node (K : Type) where
  prev : Option K
  next : Option K
deriving DecidableEq, Repr

/-- The LRU cache (`struct Cache<K, V>` in cache.rs): capacity, the hash map
from keys to (value, node) pairs, and the head (most recent) / tail (least
recent) keys of the recency chain. -/
structure Cache (K V : Type) where
  capacity : Nat
  map : List (K × V × Node K)
  head : Option K
  tail : Option K
deriving DecidableEq, Repr

variable {K V : Type} [DecidableEq K]

/-- Model of `HashMap::get`: lookup by key (first occurrence). -/
def mapGet : List (K × V × Node K) → K → Option (V × Node K)
  | [], _ => none
  | (k', v, nd) :: rest, k => if k' = k then some (v, nd) else mapGet rest k

/-- Model of `HashMap::contains_key`. -/
def mapContains (m : List (K × V × Node K)) (k : K) : Bool :=
  (mapGet m k).isSome

/-- Model of `HashMap::insert`: replace the entry in place if the key is present,
otherwise add a new entry. -/
def mapInsert : List (K × V × Node K) → K → V × Node K → List (K × V × Node K)
  | [], k, e => [(k, e.1, e.2)]
  | (k', v, nd) :: rest, k, e =>
      if k' = k then (k', e.1, e.2) :: rest else (k', v, nd) :: mapInsert rest k e

/-- Model of `HashMap::remove`: drop the entry with the given key. -/
def mapRemove : List (K × V × Node K) → K → List (K × V × Node K)
  | [], _ => []
  | (k', v, nd) :: rest, k =>
      if k' = k then rest else (k', v, nd) :: mapRemove rest k

/-- The keys of the map, in storage order. -/
def keysOf (m : List (K × V × Node K)) : List K := m.map (fun e => e.1)

/-- Model of `map.get_mut(k).unwrap()` followed by `node.next = x` (total part). -/
def setNextT : List (K × V × Node K) → K → Option K → List (K × V × Node K)
  | [], _, _ => []
  | (k', v, nd) :: rest, k, x =>
      if k' = k then (k', v, Node.mk nd.prev x) :: rest
      else (k', v, nd) :: setNextT rest k x

/-- Model of `map.get_mut(k).unwrap()` followed by `node.prev = x` (total part). -/
def setPrevT : List (K × V × Node K) → K → Option K → List (K × V × Node K)
  | [], _, _ => []
  | (k', v, nd) :: rest, k, x =>
      if k' = k then (k', v, Node.mk x nd.next) :: rest
      else (k', v, nd) :: setPrevT rest k x

/-- Model of `map.get_mut(k).unwrap()` followed by assigning both link fields. -/
def setNodeT : List (K × V × Node K) → K → Node K → List (K × V × Node K)
  | [], _, _ => []
  | (k', v, nd) :: rest, k, n =>
      if k' = k then (k', v, n) :: rest else (k', v, nd) :: setNodeT rest k n

/-- Guarded `node.next = x`: `none` when the `get_mut(..).unwrap()` would panic. -/
def setNext (m : List (K × V × Node K)) (k : K) (x : Option K) :
    Option (List (K × V × Node K)) :=
  if mapContains m k then some (setNextT m k x) else none

/-- Guarded `node.prev = x`: `none` when the `get_mut(..).unwrap()` would panic. -/
def setPrev (m : List (K × V × Node K)) (k : K) (x : Option K) :
    Option (List (K × V × Node K)) :=
  if mapContains m k then some (setPrevT m k x) else none

/-- Model of `Cache::new(capacity)`. -/
def Cache.new (K V : Type) (capacity : Nat) : Cache K V :=
  { capacity := capacity, map := [], head := none, tail := none }

/-- Model of `Cache::remove_node(&mut self, key)`: unlink the node with `key` from its
chain position, fixing up the neighbours (or `head`/`tail`).  `none` models a
panic of one of the `unwrap()` calls. -/
def remove_node (c : Cache K V) (key : K) : Option (Cache K V) := do
  let e ← mapGet c.map key
  let prevOpt := e.2.prev
  let nextOpt := e.2.next
  let (m1, head1) ←
    match prevOpt with
    | some pk => do
        let m' ← setNext c.map pk nextOpt
        pure (m', c.head)
    | none => pure (c.map, nextOpt)
  let (m2, tail2) ←
    match nextOpt with
    | some nk => do
        let m' ← setPrev m1 nk prevOpt
        pure (m', c.tail)
    | none => pure (m1, prevOpt)
  pure { c with map := m2, head := head1, tail := tail2 }

/-- Model of `Cache::add_to_head(&mut self, key)`: link the node with `key` in front of
the current head and make it the new head (and the tail if the chain was
empty).  `none` models a panic of one of the `unwrap()` calls. -/
def add_to_head (c : Cache K V) (key : K) : Option (Cache K V) := do
  let _ ← mapGet c.map key
  let m1 := setNodeT c.map key (Node.mk none c.head)
  let m2 ←
    match c.head with
    | some oldHead => setPrev m1 oldHead (some key)
    | none => pure m1
  let tail' := if c.tail = none then some key else c.tail
  pure { c with map := m2, head := some key, tail := tail' }

/-- Model of `Cache::move_to_head(&mut self, key)`. -/
def move_to_head (c : Cache K V) (key : K) : Option (Cache K V) := do
  let c1 ← remove_node c key
  add_to_head c1 key

/-- Model of `Cache::remove_tail(&mut self)`: evict the least-recently-used entry. -/
def remove_tail (c : Cache K V) : Option (Cache K V) :=
  match c.tail with
  | none => some c
  | some tailKey => do
      let c1 ← remove_node c tailKey
      pure { c1 with map := mapRemove c1.map tailKey }

/-- Model of `LRUCache::put(&mut self, key, value)` for `Cache`. -/
def put (c : Cache K V) (key : K) (value : V) : Option (Cache K V) := do
  let c1 ←
    if mapContains c.map key then remove_node c key
    else if c.map.length = c.capacity then remove_tail c
    else pure c
  let c2 := { c1 with map := mapInsert c1.map key (value, Node.mk none none) }
  add_to_head c2 key

/-- Model of `LRUCache::get(&mut self, key)` for `Cache`: returns the state after the
call together with the looked-up value. -/
def get (c : Cache K V) (key : K) : Option (Cache K V × Option V) :=
  if mapContains c.map key then do
    let c1 ← move_to_head c key
    let e ← mapGet c1.map key
    pure (c1, some e.1)
  else
    some (c, none)

/-- Model of `str::split('\t')` on one line, as the list of segments between tabs
(Rust's `split` yields `[""]` on the empty string, likewise here). -/
def splitTab : List Char → List (List Char)
  | [] => [[]]
  | c :: rest =>
      if c = '\t' then [] :: splitTab rest
      else
        match splitTab rest with
        | [] => [[c]]
        | s :: ss => (c :: s) :: ss

/-- One iteration of the `load_from_file` loop body: split the line on tabs,
take the first two segments, parse both, and `put` on success; any failure to
obtain or parse the two fields silently skips the line. -/
def processLine (parseK : List Char → Option K) (parseV : List Char → Option V)
    (c : Cache K V) (line : List Char) : Option (Cache K V) :=
  let parts := splitTab line
  match parts[0]?, parts[1]? with
  | some kStr, some vStr =>
      match parseK kStr, parseV vStr with
      | some key, some value => put c key value
      | _, _ => some c
  | _, _ => some c

/-- Model of `Cache::load_from_file`: `contents = none` models a nonexistent file
(the `Path::new(filename).exists()` check, an immediate `Ok(())`); otherwise
every line is processed in order. -/
def load_from_file (parseK : List Char → Option K) (parseV : List Char → Option V)
    (c : Cache K V) (contents : Option (List (List Char))) : Option (Cache K V) :=
  match contents with
  | none => some c
  | some lines => lines.foldlM (processLine parseK parseV) c

/-- Model of `Cache::save_to_file`: the lines written, one `"{key}\t{value}"` line per
map entry, in the map's storage order (the `HashMap` iteration order is
unspecified, so theorems quantify over permutations of these lines). -/
def save_lines (showK : K → List Char) (showV : V → List Char)
    (c : Cache K V) : List (List Char) :=
  c.map.map (fun e => showK e.1 ++ '\t' :: showV e.2.1)

/-- Model of `Cache::new_persistent(capacity, filename)`: a fresh cache loaded from the
file's contents, errors discarded (`unwrap_or_else(|_| ())`); a panic inside
`put` is still a panic, hence `Option`. -/
def new_persistent (parseK : List Char → Option K) (parseV : List Char → Option V)
    (capacity : Nat) (contents : Option (List (List Char))) : Option (Cache K V) :=
  load_from_file parseK parseV (Cache.new K V capacity) contents

/-- The chain-segment predicate: `chainSeg m p l stop` holds when the keys in
`l`, looked up in `m`, are doubly linked in order, the first node's `prev`
being `p` and the last node's `next` being `stop`. -/
def chainSeg (m : List (K × V × Node K)) : Option K → List K → Option K → Bool
  | _, [], _ => true
  | p, [k], stop =>
      match mapGet m k with
      | none => false
      | some (_, nd) => decide (nd.prev = p) && decide (nd.next = stop)
  | p, k :: k2 :: rest, stop =>
      match mapGet m k with
      | none => false
      | some (_, nd) =>
          decide (nd.prev = p) && decide (nd.next = some k2) &&
            chainSeg m (some k) (k2 :: rest) stop

/-- Well-formedness of a cache with recency chain `l` (most recent first):
the chain is duplicate-free, lists exactly the map's keys, starts at `head`,
ends at `tail`, and the stored links realize it. -/
structure Wf (c : Cache K V) (l : List K) : Prop where
  nodup : l.Nodup
  perm : (keysOf c.map).Perm l
  headEq : c.head = l.head?
  tailEq : c.tail = l.getLast?
  links : chainSeg c.map none l none = true

instance (c : Cache K V) (l : List K) : Decidable (Wf c l) := by
  have : Wf c l ↔ l.Nodup ∧ (keysOf c.map).Perm l ∧ c.head = l.head? ∧
      c.tail = l.getLast? ∧ chainSeg c.map none l none = true := by
    constructor
    · intro h; exact ⟨h.nodup, h.perm, h.headEq, h.tailEq, h.links⟩
    · intro h; exact ⟨h.1, h.2.1, h.2.2.1, h.2.2.2.1, h.2.2.2.2⟩
  exact decidable_of_iff _ this.symm

/-- The value stored for a key, ignoring the link metadata. -/
def valOf (m : List (K × V × Node K)) (k : K) : Option V :=
  (mapGet m k).map (fun e => e.1)

/-! ### Lemmas about the map primitives -/

theorem keysOf_length (m : List (K × V × Node K)) : (keysOf m).length = m.length :=
  List.length_map _ _

theorem mapContains_iff_mem_keysOf (m : List (K × V × Node K)) (k : K) :
    mapContains m k = true ↔ k ∈ keysOf m := by
  induction m with
  | nil => simp [mapContains, mapGet, keysOf]
  | cons e rest ih =>
      obtain ⟨k', v, nd⟩ := e
      by_cases h : k' = k
      · subst h
        simp [mapContains, mapGet, keysOf]
      · have h' : ¬ (k = k') := fun hc => h hc.symm
        simp [mapContains, mapGet, keysOf, h, h'] at ih ⊢
        exact ih

theorem mapGet_isSome_of_mem_keysOf {m : List (K × V × Node K)} {k : K}
    (h : k ∈ keysOf m) : (mapGet m k).isSome := by
  have := (mapContains_iff_mem_keysOf m k).mpr h
  simpa [mapContains] using this

theorem mapGet_eq_none_of_not_mem {m : List (K × V × Node K)} {k : K}
    (h : k ∉ keysOf m) : mapGet m k = none := by
  by_contra hne
  exact h ((mapContains_iff_mem_keysOf m k).mp
    (by simp [mapContains, Option.isSome_iff_ne_none, hne]))

theorem mapGet_setNextT (m : List (K × V × Node K)) (k : K) (x : Option K) (y : K) :
    mapGet (setNextT m k x) y =
      if y = k then (mapGet m k).map (fun e => (e.1, Node.mk e.2.prev x))
      else mapGet m y := by
  induction m with
  | nil => simp [setNextT, mapGet]
  | cons e rest ih =>
      obtain ⟨k', v, nd⟩ := e
      by_cases h1 : k' = k
      · subst h1
        by_cases h2 : y = k'
        · subst h2
          simp [setNextT, mapGet]
        · have h2' : ¬ (k' = y) := fun hc => h2 hc.symm
          simp [setNextT, mapGet, h2, h2']
      · by_cases h3 : k' = y
        · subst h3
          have h2 : ¬ (k' = k) := h1
          simp [setNextT, mapGet, h1, h2]
        · simp [setNextT, mapGet, h1, h3, ih]

theorem keysOf_setNextT (m : List (K × V × Node K)) (k : K) (x : Option K) :
    keysOf (setNextT m k x) = keysOf m := by
  induction m with
  | nil => rfl
  | cons e rest ih =>
      obtain ⟨k', v, nd⟩ := e
      by_cases h : k' = k
      · simp [setNextT, keysOf, h]
      · simp [setNextT, keysOf, h]
        exact ih

theorem mapGet_setPrevT (m : List (K × V × Node K)) (k : K) (x : Option K) (y : K) :
    mapGet (setPrevT m k x) y =
      if y = k then (mapGet m k).map (fun e => (e.1, Node.mk x e.2.next))
      else mapGet m y := by
  induction m with
  | nil => simp [setPrevT, mapGet]
  | cons e rest ih =>
      obtain ⟨k', v, nd⟩ := e
      by_cases h1 : k' = k
      · subst h1
        by_cases h2 : y = k'
        · subst h2
          simp [setPrevT, mapGet]
        · have h2' : ¬ (k' = y) := fun hc => h2 hc.symm
          simp [setPrevT, mapGet, h2, h2']
      · by_cases h3 : k' = y
        · subst h3
          have h2 : ¬ (k' = k) := h1
          simp [setPrevT, mapGet, h1, h2]
        · simp [setPrevT, mapGet, h1, h3, ih]

theorem keysOf_setPrevT (m : List (K × V × Node K)) (k : K) (x : Option K) :
    keysOf (setPrevT m k x) = keysOf m := by
  induction m with
  | nil => rfl
  | cons e rest ih =>
      obtain ⟨k', v, nd⟩ := e
      by_cases h : k' = k
      · simp [setPrevT, keysOf, h]
      · simp [setPrevT, keysOf, h]
        exact ih

theorem mapGet_setNodeT (m : List (K × V × Node K)) (k : K) (nd : Node K) (y : K) :
    mapGet (setNodeT m k nd) y =
      if y = k then (mapGet m k).map (fun e => (e.1, nd))
      else mapGet m y := by
  induction m with
  | nil => simp [setNodeT, mapGet]
  | cons e rest ih =>
      obtain ⟨k', v, nd'⟩ := e
      by_cases h1 : k' = k
      · subst h1
        by_cases h2 : y = k'
        · subst h2
          simp [setNodeT, mapGet]
        · have h2' : ¬ (k' = y) := fun hc => h2 hc.symm
          simp [setNodeT, mapGet, h2, h2']
      · by_cases h3 : k' = y
        · subst h3
          have h2 : ¬ (k' = k) := h1
          simp [setNodeT, mapGet, h1, h2]
        · simp [setNodeT, mapGet, h1, h3, ih]

theorem keysOf_setNodeT (m : List (K × V × Node K)) (k : K) (nd : Node K) :
    keysOf (setNodeT m k nd) = keysOf m := by
  induction m with
  | nil => rfl
  | cons e rest ih =>
      obtain ⟨k', v, nd'⟩ := e
      by_cases h : k' = k
      · simp [setNodeT, keysOf, h]
      · simp [setNodeT, keysOf, h]
        exact ih

theorem mapGet_mapInsert (m : List (K × V × Node K)) (k : K) (e : V × Node K) (y : K) :
    mapGet (mapInsert m k e) y = if y = k then some e else mapGet m y := by
  induction m with
  | nil =>
      by_cases h : y = k
      · simp [mapInsert, mapGet, h]
      · have h' : ¬ (k = y) := fun hc => h hc.symm
        simp [mapInsert, mapGet, h, h']
  | cons e' rest ih =>
      obtain ⟨k', v, nd⟩ := e'
      by_cases h1 : k' = k
      · subst h1
        by_cases h2 : y = k'
        · subst h2
          simp [mapInsert, mapGet]
        · have h2' : ¬ (k' = y) := fun hc => h2 hc.symm
          simp [mapInsert, mapGet, h2, h2']
      · by_cases h3 : k' = y
        · subst h3
          have h2 : ¬ (k' = k) := h1
          simp [mapInsert, mapGet, h1, h2]
        · simp [mapInsert, mapGet, h1, h3, ih]

theorem keysOf_mapInsert_of_contains {m : List (K × V × Node K)} {k : K}
    (h : mapContains m k = true) (e : V × Node K) :
    keysOf (mapInsert m k e) = keysOf m := by
  induction m with
  | nil => simp [mapContains, mapGet] at h
  | cons e' rest ih =>
      obtain ⟨k', v, nd⟩ := e'
      by_cases h1 : k' = k
      · simp [mapInsert, keysOf, h1]
      · simp [mapContains, mapGet, h1] at h
        simp [mapInsert, keysOf, h1]
        exact ih h

theorem keysOf_mapInsert_of_not_contains {m : List (K × V × Node K)} {k : K}
    (h : mapContains m k = false) (e : V × Node K) :
    keysOf (mapInsert m k e) = keysOf m ++ [k] := by
  induction m with
  | nil => simp [mapInsert, keysOf]
  | cons e' rest ih =>
      obtain ⟨k', v, nd⟩ := e'
      by_cases h1 : k' = k
      · simp [mapContains, mapGet, h1] at h
      · simp [mapContains, mapGet, h1] at h
        simp [mapInsert, keysOf, h1]
        exact ih (by simp [mapContains, h])

theorem keysOf_cons (k : K) (v : V) (nd : Node K) (rest : List (K × V × Node K)) :
    keysOf ((k, v, nd) :: rest) = k :: keysOf rest := rfl

theorem keysOf_mapRemove (m : List (K × V × Node K)) (k : K) :
    keysOf (mapRemove m k) = (keysOf m).erase k := by
  induction m with
  | nil => rfl
  | cons e rest ih =>
      obtain ⟨k', v, nd⟩ := e
      by_cases h : k' = k
      · simp [mapRemove, keysOf, h, List.erase_cons]
      · simp [mapRemove, keysOf, h, List.erase_cons]
        exact ih

theorem mapGet_mapRemove_ne {m : List (K × V × Node K)} {k y : K} (h : y ≠ k) :
    mapGet (mapRemove m k) y = mapGet m y := by
  induction m with
  | nil => rfl
  | cons e rest ih =>
      obtain ⟨k', v, nd⟩ := e
      by_cases h1 : k' = k
      · subst h1
        have h2 : ¬ (k' = y) := fun hc => h hc.symm
        simp [mapRemove, mapGet, h2]
      · by_cases h2 : k' = y
        · subst h2
          simp [mapRemove, mapGet, h1]
        · simp [mapRemove, mapGet, h1, h2]
          exact ih

theorem mapGet_mapRemove_self {m : List (K × V × Node K)} {k : K}
    (hnd : (keysOf m).Nodup) : mapGet (mapRemove m k) k = none := by
  induction m with
  | nil => rfl
  | cons e rest ih =>
      obtain ⟨k', v, nd⟩ := e
      rw [keysOf_cons] at hnd
      obtain ⟨hnm, hrest⟩ := List.nodup_cons.mp hnd
      by_cases h : k' = k
      · subst h
        simp [mapRemove]
        exact mapGet_eq_none_of_not_mem hnm
      · simp [mapRemove, mapGet, h]
        exact ih hrest

/-! ### Lemmas about chain segments -/

theorem chainSeg_nil (m : List (K × V × Node K)) (p stop : Option K) :
    chainSeg m p [] stop = true := rfl

theorem chainSeg_singleton (m : List (K × V × Node K)) (p : Option K) (k : K)
    (stop : Option K) :
    chainSeg m p [k] stop =
      match mapGet m k with
      | none => false
      | some (_, nd) => decide (nd.prev = p) && decide (nd.next = stop) := rfl

theorem chainSeg_cons_cons (m : List (K × V × Node K)) (p : Option K) (k k2 : K)
    (rest : List K) (stop : Option K) :
    chainSeg m p (k :: k2 :: rest) stop =
      match mapGet m k with
      | none => false
      | some (_, nd) =>
          decide (nd.prev = p) && decide (nd.next = some k2) &&
            chainSeg m (some k) (k2 :: rest) stop := rfl

theorem chainSeg_singleton_iff (m : List (K × V × Node K)) (p : Option K) (k : K)
    (stop : Option K) :
    chainSeg m p [k] stop = true ↔
      ∃ v nd, mapGet m k = some (v, nd) ∧ nd.prev = p ∧ nd.next = stop := by
  rw [chainSeg_singleton]
  cases hmk : mapGet m k with
  | none => simp
  | some e =>
      obtain ⟨v, nd⟩ := e
      constructor
      · intro hb
        simp only [Bool.and_eq_true, decide_eq_true_eq] at hb
        exact ⟨v, nd, rfl, hb.1, hb.2⟩
      · rintro ⟨v1, nd1, heq, h1, h2⟩
        injection heq with heq'
        injection heq' with hv hn
        subst hv
        subst hn
        simp [h1, h2]

theorem chainSeg_cons_cons_iff (m : List (K × V × Node K)) (p : Option K) (k k2 : K)
    (rest : List K) (stop : Option K) :
    chainSeg m p (k :: k2 :: rest) stop = true ↔
      ∃ v nd, mapGet m k = some (v, nd) ∧ nd.prev = p ∧ nd.next = some k2 ∧
        chainSeg m (some k) (k2 :: rest) stop = true := by
  rw [chainSeg_cons_cons]
  cases hmk : mapGet m k with
  | none => simp
  | some e =>
      obtain ⟨v, nd⟩ := e
      simp [Bool.and_assoc, and_assoc]

theorem chainSeg_members {m : List (K × V × Node K)} {l : List K} :
    ∀ {p stop : Option K}, chainSeg m p l stop = true →
      ∀ x ∈ l, (mapGet m x).isSome := by
  induction l with
  | nil => intro p stop _ x hx; cases hx
  | cons k rest ih =>
      intro p stop h x hx
      cases rest with
      | nil =>
          obtain ⟨v, nd, hget, _, _⟩ := (chainSeg_singleton_iff m p k stop).mp h
          rcases List.mem_cons.mp hx with rfl | hx
          · simp [hget]
          · cases hx
      | cons k2 rest2 =>
          obtain ⟨v, nd, hget, _, _, htail⟩ :=
            (chainSeg_cons_cons_iff m p k k2 rest2 stop).mp h
          rcases List.mem_cons.mp hx with rfl | hx
          · simp [hget]
          · exact ih htail x hx

theorem chainSeg_congr {m m' : List (K × V × Node K)} {l : List K}
    (h : ∀ x ∈ l, mapGet m' x = mapGet m x) (p stop : Option K) :
    chainSeg m' p l stop = chainSeg m p l stop := by
  induction l generalizing p with
  | nil => rfl
  | cons k rest ih =>
      have hk : mapGet m' k = mapGet m k := h k (List.mem_cons_self _ _)
      have hrest : ∀ x ∈ rest, mapGet m' x = mapGet m x :=
        fun x hx => h x (List.mem_cons_of_mem _ hx)
      cases rest with
      | nil => rw [chainSeg_singleton, chainSeg_singleton, hk]
      | cons k2 rest2 =>
          rw [chainSeg_cons_cons, chainSeg_cons_cons, hk, ih hrest]

/-- The `prev` pointer that a segment following `l` must carry: the last key of
`l`, or `p` when `l` is empty. -/
def endPrev (p : Option K) (l : List K) : Option K :=
  match l.getLast? with
  | none => p
  | some x => some x

theorem endPrev_nil (p : Option K) : endPrev p ([] : List K) = p := rfl

theorem endPrev_cons (p : Option K) (x : K) (xs : List K) :
    endPrev p (x :: xs) = endPrev (some x) xs := by
  cases xs with
  | nil => rfl
  | cons y ys =>
      cases hz : (y :: ys).getLast? with
      | none => exact absurd (List.getLast?_eq_none_iff.mp hz) (by simp)
      | some z => simp [endPrev, List.getLast?_cons_cons, hz]

theorem chainSeg_append_cons (m : List (K × V × Node K)) (p stop : Option K)
    (l1 l2 : List K) (k : K) :
    chainSeg m p (l1 ++ k :: l2) stop =
      (chainSeg m p l1 (some k) && chainSeg m (endPrev p l1) (k :: l2) stop) := by
  induction l1 generalizing p with
  | nil => simp [chainSeg_nil, endPrev_nil]
  | cons x xs ih =>
      rw [endPrev_cons]
      cases xs with
      | nil =>
          rw [show (([x] : List K) ++ k :: l2) = x :: k :: l2 from rfl]
          rw [chainSeg_cons_cons, chainSeg_singleton]
          cases hmx : mapGet m x with
          | none => simp
          | some e =>
              obtain ⟨v, nd⟩ := e
              rw [show endPrev (some x) ([] : List K) = some x from rfl]
      | cons y ys =>
          rw [show ((x :: y :: ys) ++ k :: l2) = x :: ((y :: ys) ++ k :: l2) from rfl]
          rw [show ((y :: ys) ++ k :: l2 : List K) = y :: (ys ++ k :: l2) from rfl]
          rw [chainSeg_cons_cons, chainSeg_cons_cons]
          cases hmx : mapGet m x with
          | none => simp
          | some e =>
              obtain ⟨v, nd⟩ := e
              rw [show (y :: (ys ++ k :: l2) : List K) = ((y :: ys) ++ k :: l2) from rfl,
                ih (some x)]
              simp [Bool.and_assoc]

theorem chainSeg_setNextT_last {m : List (K × V × Node K)} {lk : K} {l : List K}
    (hnm : lk ∉ l) {p stop : Option K} (x : Option K)
    (h : chainSeg m p (l ++ [lk]) stop = true) :
    chainSeg (setNextT m lk x) p (l ++ [lk]) x = true := by
  rw [chainSeg_append_cons] at h
  rw [chainSeg_append_cons, Bool.and_eq_true]
  simp only [Bool.and_eq_true] at h
  obtain ⟨h1, h2⟩ := h
  obtain ⟨v, nd, hget, hprev, _⟩ := (chainSeg_singleton_iff _ _ _ _).mp h2
  constructor
  · rw [chainSeg_congr (m := m) _ p (some lk)]
    · exact h1
    · intro a ha
      rw [mapGet_setNextT]
      have : ¬ (a = lk) := fun hc => hnm (hc ▸ ha)
      simp [this]
  · rw [chainSeg_singleton_iff]
    refine ⟨v, Node.mk nd.prev x, ?_, hprev, rfl⟩
    rw [mapGet_setNextT]
    simp [hget]

theorem chainSeg_setPrevT_head {m : List (K × V × Node K)} {k : K} {rest : List K}
    (hnm : k ∉ rest) {p stop : Option K} (q : Option K)
    (h : chainSeg m p (k :: rest) stop = true) :
    chainSeg (setPrevT m k q) q (k :: rest) stop = true := by
  cases rest with
  | nil =>
      obtain ⟨v, nd, hget, _, hnext⟩ := (chainSeg_singleton_iff _ _ _ _).mp h
      rw [chainSeg_singleton_iff]
      refine ⟨v, Node.mk q nd.next, ?_, rfl, hnext⟩
      rw [mapGet_setPrevT]
      simp [hget]
  | cons k2 rest2 =>
      obtain ⟨v, nd, hget, _, hnext, htail⟩ := (chainSeg_cons_cons_iff _ _ _ _ _ _).mp h
      rw [chainSeg_cons_cons_iff]
      refine ⟨v, Node.mk q nd.next, ?_, rfl, hnext, ?_⟩
      · rw [mapGet_setPrevT]
        simp [hget]
      · rw [chainSeg_congr (m := m) _ (some k) stop]
        · exact htail
        · intro a ha
          rw [mapGet_setPrevT]
          have : ¬ (a = k) := fun hc => hnm (hc ▸ ha)
          simp [this]

theorem chainSeg_contains {m : List (K × V × Node K)} {l : List K} {p stop : Option K}
    (h : chainSeg m p l stop = true) (x : K) (hx : x ∈ l) :
    mapContains m x = true := by
  have := chainSeg_members h x hx
  simpa [mapContains] using this

theorem head?_append_of_ne_nil {l1 : List K} (l2 : List K) (h : l1 ≠ []) :
    (l1 ++ l2).head? = l1.head? := by
  cases l1 with
  | nil => exact absurd rfl h
  | cons a t => rfl

theorem nodup_middle_facts {l1 l2 : List K} {k : K} (h : (l1 ++ k :: l2).Nodup) :
    l1.Nodup ∧ l2.Nodup ∧ k ∉ l1 ∧ k ∉ l2 ∧ l1.Disjoint (k :: l2) := by
  rw [List.nodup_append] at h
  obtain ⟨h1, h2, h3⟩ := h
  rw [List.nodup_cons] at h2
  exact ⟨h1, h2.2, fun hk => h3 hk (List.mem_cons_self _ _), h2.1, h3⟩

theorem valOf_setNextT (m : List (K × V × Node K)) (k : K) (x : Option K) (y : K) :
    valOf (setNextT m k x) y = valOf m y := by
  unfold valOf
  rw [mapGet_setNextT]
  by_cases h : y = k
  · subst h
    cases mapGet m y <;> simp
  · simp [h]

theorem valOf_setPrevT (m : List (K × V × Node K)) (k : K) (x : Option K) (y : K) :
    valOf (setPrevT m k x) y = valOf m y := by
  unfold valOf
  rw [mapGet_setPrevT]
  by_cases h : y = k
  · subst h
    cases mapGet m y <;> simp
  · simp [h]

theorem valOf_setNodeT (m : List (K × V × Node K)) (k : K) (nd : Node K) (y : K) :
    valOf (setNodeT m k nd) y = valOf m y := by
  unfold valOf
  rw [mapGet_setNodeT]
  by_cases h : y = k
  · subst h
    cases mapGet m y <;> simp
  · simp [h]

theorem valOf_mapInsert (m : List (K × V × Node K)) (k : K) (e : V × Node K) (y : K) :
    valOf (mapInsert m k e) y = if y = k then some e.1 else valOf m y := by
  unfold valOf
  rw [mapGet_mapInsert]
  by_cases h : y = k
  · simp [h]
  · simp [h]

theorem valOf_mapRemove_ne {m : List (K × V × Node K)} {k y : K} (h : y ≠ k) :
    valOf (mapRemove m k) y = valOf m y := by
  unfold valOf
  rw [mapGet_mapRemove_ne h]

/-! ### Specification of `remove_node` -/

theorem remove_node_spec (c : Cache K V) (l1 l2 : List K) (k : K)
    (hnd : (l1 ++ k :: l2).Nodup)
    (hchain : chainSeg c.map none (l1 ++ k :: l2) none = true)
    (hhead : c.head = (l1 ++ k :: l2).head?)
    (htail : c.tail = (l1 ++ k :: l2).getLast?) :
    ∃ c', remove_node c k = some c' ∧
      c'.capacity = c.capacity ∧
      c'.head = (l1 ++ l2).head? ∧
      c'.tail = (l1 ++ l2).getLast? ∧
      keysOf c'.map = keysOf c.map ∧
      (∀ y, valOf c'.map y = valOf c.map y) ∧
      chainSeg c'.map none (l1 ++ l2) none = true := by
  obtain ⟨hnd1, hnd2, hknl1, hknl2, hdisj⟩ := nodup_middle_facts hnd
  have hchain' := hchain
  rw [chainSeg_append_cons, Bool.and_eq_true] at hchain'
  obtain ⟨hs1, hs2⟩ := hchain'
  rcases List.eq_nil_or_concat l1 with hl1 | ⟨l1', pk, hl1⟩
  · subst hl1
    -- k is the head of the chain
    cases l2 with
    | nil =>
        obtain ⟨v, nd, hget, hprev, hnext⟩ := (chainSeg_singleton_iff _ _ _ _).mp hs2
        rw [endPrev_nil] at hprev
        refine ⟨{ c with head := none, tail := none }, ?_, rfl, rfl, rfl, rfl,
          fun y => rfl, chainSeg_nil _ _ _⟩
        simp [remove_node, hget, hprev, hnext]
    | cons k2 l2' =>
        obtain ⟨v, nd, hget, hprev, hnext, htl⟩ := (chainSeg_cons_cons_iff _ _ _ _ _ _).mp hs2
        rw [endPrev_nil] at hprev
        have hk2mem : k2 ∈ ([] : List K) ++ k :: k2 :: l2' := by simp
        have hcont2 : mapContains c.map k2 = true := chainSeg_contains hchain k2 hk2mem
        have hk2nl2' : k2 ∉ l2' := (List.nodup_cons.mp hnd2).1
        refine ⟨{ c with map := setPrevT c.map k2 none, head := some k2 }, ?_, rfl, rfl,
          ?_, ?_, ?_, ?_⟩
        · simp [remove_node, hget, hprev, hnext, setPrev, hcont2]
        · rw [htail]
          simp [List.getLast?_cons_cons]
        · exact keysOf_setPrevT _ _ _
        · exact fun y => valOf_setPrevT _ _ _ y
        · exact chainSeg_setPrevT_head hk2nl2' none htl
  · rw [List.concat_eq_append] at hl1
    subst hl1
    have hpkl1 : pk ∈ l1' ++ [pk] := List.mem_append_right _ (List.mem_singleton_self _)
    have hpkmem : pk ∈ (l1' ++ [pk]) ++ k :: l2 := List.mem_append_left _ hpkl1
    have hcontp : mapContains c.map pk = true := chainSeg_contains hchain pk hpkmem
    have hpknd : pk ∉ l1' := by
      rw [List.nodup_append] at hnd1
      exact fun hc => hnd1.2.2 hc (List.mem_singleton_self _)
    have hendp : endPrev (none : Option K) (l1' ++ [pk]) = some pk := by
      unfold endPrev
      rw [List.getLast?_concat]
    have hne : (l1' ++ [pk] : List K) ≠ [] := by simp
    cases l2 with
    | nil =>
        obtain ⟨v, nd, hget, hprev, hnext⟩ := (chainSeg_singleton_iff _ _ _ _).mp hs2
        rw [hendp] at hprev
        refine ⟨{ c with map := setNextT c.map pk none, tail := some pk }, ?_, rfl,
          ?_, ?_, ?_, ?_, ?_⟩
        · simp [remove_node, hget, hprev, hnext, setNext, hcontp]
        · rw [hhead, List.append_nil, head?_append_of_ne_nil _ hne]
        · rw [List.append_nil, List.getLast?_concat]
        · exact keysOf_setNextT _ _ _
        · exact fun y => valOf_setNextT _ _ _ y
        · rw [List.append_nil]
          exact chainSeg_setNextT_last hpknd none hs1
    | cons k2 l2' =>
        obtain ⟨v, nd, hget, hprev, hnext, htl⟩ := (chainSeg_cons_cons_iff _ _ _ _ _ _).mp hs2
        rw [hendp] at hprev
        have hk2mem : k2 ∈ (l1' ++ [pk]) ++ k :: k2 :: l2' := by simp
        have hcont2 : mapContains c.map k2 = true := chainSeg_contains hchain k2 hk2mem
        have hcont2' : mapContains (setNextT c.map pk (some k2)) k2 = true := by
          rw [mapContains_iff_mem_keysOf, keysOf_setNextT]
          exact (mapContains_iff_mem_keysOf _ _).mp hcont2
        have hk2nl2' : k2 ∉ l2' := (List.nodup_cons.mp hnd2).1
        have hk2nl1 : k2 ∉ l1' ++ [pk] := by
          intro hc
          exact hdisj hc (List.mem_cons_of_mem _ (List.mem_cons_self _ _))
        have hpknotin2 : pk ∉ k2 :: l2' := by
          intro hc
          exact hdisj hpkl1 (List.mem_cons_of_mem _ hc)
        refine ⟨{ c with map := setPrevT (setNextT c.map pk (some k2)) k2 (some pk) }, ?_,
          rfl, ?_, ?_, ?_, ?_, ?_⟩
        · simp [remove_node, hget, hprev, hnext, setNext, hcontp, setPrev, hcont2']
        · rw [hhead, head?_append_of_ne_nil _ hne, head?_append_of_ne_nil _ hne]
        · rw [htail, List.getLast?_append_cons, List.getLast?_append_cons,
            List.getLast?_cons_cons]
        · rw [keysOf_setPrevT, keysOf_setNextT]
        · intro y
          rw [valOf_setPrevT, valOf_setNextT]
        · rw [chainSeg_append_cons, Bool.and_eq_true, hendp]
          constructor
          · rw [chainSeg_congr (m := setNextT c.map pk (some k2)) _ none (some k2)]
            · exact chainSeg_setNextT_last hpknd (some k2) hs1
            · intro a ha
              rw [mapGet_setPrevT]
              have : ¬ (a = k2) := fun hc => hk2nl1 (hc ▸ ha)
              simp [this]
          · have htl' : chainSeg (setNextT c.map pk (some k2)) (some k) (k2 :: l2') none
                = true := by
              rw [chainSeg_congr (m := c.map) _ (some k) none]
              · exact htl
              · intro a ha
                rw [mapGet_setNextT]
                have : ¬ (a = pk) := fun hc => hpknotin2 (hc ▸ ha)
                simp [this]
            exact chainSeg_setPrevT_head hk2nl2' (some pk) htl'

/-! ### Specification of `add_to_head` -/

theorem add_to_head_spec (c : Cache K V) (l : List K) (k : K)
    (hcont : mapContains c.map k = true)
    (hkl : k ∉ l)
    (hnd : l.Nodup)
    (hchain : chainSeg c.map none l none = true)
    (hhead : c.head = l.head?)
    (htail : c.tail = l.getLast?) :
    ∃ c', add_to_head c k = some c' ∧
      c'.capacity = c.capacity ∧
      c'.head = some k ∧
      c'.tail = (k :: l).getLast? ∧
      keysOf c'.map = keysOf c.map ∧
      (∀ y, valOf c'.map y = valOf c.map y) ∧
      chainSeg c'.map none (k :: l) none = true := by
  obtain ⟨e, hget⟩ := Option.isSome_iff_exists.mp (by simpa [mapContains] using hcont)
  obtain ⟨v, nd⟩ := e
  cases l with
  | nil =>
      have hh : c.head = none := by rw [hhead]; rfl
      have ht : c.tail = none := by rw [htail]; rfl
      refine ⟨{ c with
          map := setNodeT c.map k (Node.mk none none),
          head := some k,
          tail := some k }, ?_, rfl, rfl, rfl, keysOf_setNodeT _ _ _,
        fun y => valOf_setNodeT _ _ _ y, ?_⟩
      · simp [add_to_head, hget, hh, ht]
      · rw [chainSeg_singleton_iff]
        refine ⟨v, Node.mk none none, ?_, rfl, rfl⟩
        rw [mapGet_setNodeT]
        simp [hget]
  | cons oh rest =>
      have hh : c.head = some oh := by rw [hhead]; rfl
      have hoh : oh ∈ oh :: rest := List.mem_cons_self _ _
      have hcoh : mapContains (setNodeT c.map k (Node.mk none (some oh))) oh = true := by
        rw [mapContains_iff_mem_keysOf, keysOf_setNodeT]
        exact (mapContains_iff_mem_keysOf _ _).mp (chainSeg_contains hchain oh hoh)
      obtain ⟨z, htz⟩ : ∃ z, c.tail = some z := by
        rw [htail]
        cases hz : (oh :: rest).getLast? with
        | none => exact absurd (List.getLast?_eq_none_iff.mp hz) (by simp)
        | some z => exact ⟨z, rfl⟩
      have hknoh : ¬ (k = oh) := fun hc => hkl (hc ▸ hoh)
      have hohrest : oh ∉ rest := (List.nodup_cons.mp hnd).1
      refine ⟨{ c with
          map := setPrevT (setNodeT c.map k (Node.mk none (some oh))) oh (some k),
          head := some k }, ?_, rfl, rfl, ?_, ?_, ?_, ?_⟩
      · simp [add_to_head, hget, hh, setPrev, hcoh, htz]
      · rw [List.getLast?_cons_cons]
        exact htail
      · rw [keysOf_setPrevT, keysOf_setNodeT]
      · intro y
        rw [valOf_setPrevT, valOf_setNodeT]
      · rw [chainSeg_cons_cons_iff]
        refine ⟨v, Node.mk none (some oh), ?_, rfl, rfl, ?_⟩
        · rw [mapGet_setPrevT]
          simp only [hknoh, if_false]
          rw [mapGet_setNodeT]
          simp [hget]
        · have hm1 : chainSeg (setNodeT c.map k (Node.mk none (some oh))) none
              (oh :: rest) none = true := by
            rw [chainSeg_congr (m := c.map) _ none none]
            · exact hchain
            · intro a ha
              rw [mapGet_setNodeT]
              have : ¬ (a = k) := fun hc => hkl (hc ▸ ha)
              simp [this]
          exact chainSeg_setPrevT_head hohrest (some k) hm1

/-! ### Derived facts about well-formed caches -/

theorem Wf.mem_iff {c : Cache K V} {l : List K} (h : Wf c l) (k : K) :
    k ∈ l ↔ mapContains c.map k = true := by
  rw [mapContains_iff_mem_keysOf]
  exact (h.perm.mem_iff).symm

theorem Wf.length_eq {c : Cache K V} {l : List K} (h : Wf c l) :
    c.map.length = l.length := by
  rw [← keysOf_length]
  exact h.perm.length_eq

theorem Wf.keys_nodup {c : Cache K V} {l : List K} (h : Wf c l) :
    (keysOf c.map).Nodup :=
  h.perm.nodup_iff.mpr h.nodup

theorem Wf_new (capacity : Nat) : Wf (Cache.new K V capacity) [] :=
  ⟨List.nodup_nil, List.Perm.refl _, rfl, rfl, rfl⟩

/-! ### Specification of `put` -/

theorem put_mem_spec (c : Cache K V) (l : List K) (k : K) (v : V)
    (hw : Wf c l) (hk : k ∈ l) :
    ∃ c', put c k v = some c' ∧ Wf c' (k :: l.erase k) ∧
      c'.capacity = c.capacity ∧
      c'.map.length = c.map.length ∧
      valOf c'.map k = some v ∧
      (∀ y, y ≠ k → valOf c'.map y = valOf c.map y) := by
  obtain ⟨l1, l2, rfl⟩ := List.append_of_mem hk
  have hcont : mapContains c.map k = true := (hw.mem_iff k).mp hk
  obtain ⟨hnd1, hnd2, hknl1, hknl2, hdisj⟩ := nodup_middle_facts hw.nodup
  have herase : (l1 ++ k :: l2).erase k = l1 ++ l2 := by
    rw [List.erase_append_right _ hknl1, List.erase_cons_head]
  have hndmid : (k :: (l1 ++ l2)).Nodup := List.nodup_middle.mp hw.nodup
  have hnd12 : (l1 ++ l2).Nodup := (List.nodup_cons.mp hndmid).2
  have hknl12 : k ∉ l1 ++ l2 := (List.nodup_cons.mp hndmid).1
  obtain ⟨c1, hrun1, hcap1, hhead1, htail1, hkeys1, hval1, hchain1⟩ :=
    remove_node_spec c l1 l2 k hw.nodup hw.links hw.headEq hw.tailEq
  have hcont1 : mapContains c1.map k = true := by
    rw [mapContains_iff_mem_keysOf, hkeys1]
    exact (mapContains_iff_mem_keysOf _ _).mp hcont
  have hcont2 : mapContains (mapInsert c1.map k (v, Node.mk none none)) k = true := by
    simp [mapContains, mapGet_mapInsert]
  have hchain2 : chainSeg (mapInsert c1.map k (v, Node.mk none none)) none
      (l1 ++ l2) none = true := by
    rw [chainSeg_congr (m := c1.map) _ none none]
    · exact hchain1
    · intro a ha
      rw [mapGet_mapInsert]
      have : ¬ (a = k) := fun hc => hknl12 (hc ▸ ha)
      simp [this]
  obtain ⟨c3, hrun3, hcap3, hhead3, htail3, hkeys3, hval3, hchain3⟩ :=
    add_to_head_spec { c1 with map := mapInsert c1.map k (v, Node.mk none none) }
      (l1 ++ l2) k hcont2 hknl12 hnd12 hchain2 hhead1 htail1
  have hkeysIns : keysOf (mapInsert c1.map k (v, Node.mk none none)) = keysOf c1.map :=
    keysOf_mapInsert_of_contains hcont1 _
  have hkeysAll : keysOf c3.map = keysOf c.map := by
    rw [hkeys3]
    show keysOf (mapInsert c1.map k (v, Node.mk none none)) = keysOf c.map
    rw [hkeysIns, hkeys1]
  refine ⟨c3, ?_, ?_, hcap3.trans hcap1, ?_, ?_, ?_⟩
  · simp only [put, hcont, if_true, hrun1, Option.some_bind]
    exact hrun3
  · rw [herase]
    refine ⟨hndmid, ?_, hhead3, htail3, hchain3⟩
    rw [hkeysAll]
    exact hw.perm.trans List.perm_middle
  · rw [← keysOf_length, ← keysOf_length, hkeysAll]
  · rw [hval3 k]
    show valOf (mapInsert c1.map k (v, Node.mk none none)) k = some v
    rw [valOf_mapInsert]
    simp
  · intro y hy
    rw [hval3 y]
    show valOf (mapInsert c1.map k (v, Node.mk none none)) y = valOf c.map y
    rw [valOf_mapInsert]
    simp only [hy, if_false]
    exact hval1 y

theorem put_fresh_spec (c : Cache K V) (l : List K) (k : K) (v : V)
    (hw : Wf c l) (hk : k ∉ l)
    (hcap : c.map.length ≠ c.capacity ∨ l = []) :
    ∃ c', put c k v = some c' ∧ Wf c' (k :: l) ∧
      c'.capacity = c.capacity ∧
      c'.map.length = c.map.length + 1 ∧
      valOf c'.map k = some v ∧
      (∀ y, y ≠ k → valOf c'.map y = valOf c.map y) := by
  have hcont : mapContains c.map k = false := by
    cases hb : mapContains c.map k with
    | false => rfl
    | true => exact absurd ((hw.mem_iff k).mpr hb) hk
  have hstep1 : put c k v =
      add_to_head { c with map := mapInsert c.map k (v, Node.mk none none) } k := by
    rcases hcap with hcap | hcap
    · simp [put, hcont, hcap]
    · subst hcap
      by_cases hlen : c.map.length = c.capacity
      · have ht : c.tail = none := hw.tailEq
        simp [put, hcont, hlen, remove_tail, ht]
      · simp [put, hcont, hlen]
  have hcont2 : mapContains (mapInsert c.map k (v, Node.mk none none)) k = true := by
    simp [mapContains, mapGet_mapInsert]
  have hchain2 : chainSeg (mapInsert c.map k (v, Node.mk none none)) none l none = true := by
    rw [chainSeg_congr (m := c.map) _ none none]
    · exact hw.links
    · intro a ha
      rw [mapGet_mapInsert]
      have : ¬ (a = k) := fun hc => hk (hc ▸ ha)
      simp [this]
  obtain ⟨c3, hrun3, hcap3, hhead3, htail3, hkeys3, hval3, hchain3⟩ :=
    add_to_head_spec { c with map := mapInsert c.map k (v, Node.mk none none) }
      l k hcont2 hk hw.nodup hchain2 hw.headEq hw.tailEq
  have hkeysIns : keysOf (mapInsert c.map k (v, Node.mk none none)) = keysOf c.map ++ [k] :=
    keysOf_mapInsert_of_not_contains hcont _
  have hkeysAll : keysOf c3.map = keysOf c.map ++ [k] := by
    rw [hkeys3]
    exact hkeysIns
  refine ⟨c3, ?_, ?_, hcap3, ?_, ?_, ?_⟩
  · rw [hstep1]
    exact hrun3
  · refine ⟨List.nodup_cons.mpr ⟨hk, hw.nodup⟩, ?_, hhead3, htail3, hchain3⟩
    rw [hkeysAll]
    exact (List.perm_append_singleton k _).trans (hw.perm.cons k)
  · rw [← keysOf_length, ← keysOf_length, hkeysAll]
    simp
  · rw [hval3 k]
    show valOf (mapInsert c.map k (v, Node.mk none none)) k = some v
    rw [valOf_mapInsert]
    simp
  · intro y hy
    rw [hval3 y]
    show valOf (mapInsert c.map k (v, Node.mk none none)) y = valOf c.map y
    rw [valOf_mapInsert]
    simp only [hy, if_false]

theorem put_evict_spec (c : Cache K V) (l3 : List K) (tk k : K) (v : V)
    (hw : Wf c (l3 ++ [tk])) (hk : k ∉ l3 ++ [tk])
    (hlen : c.map.length = c.capacity) :
    ∃ c', put c k v = some c' ∧ Wf c' (k :: l3) ∧
      c'.capacity = c.capacity ∧
      c'.map.length = c.map.length ∧
      mapContains c'.map tk = false ∧
      valOf c'.map k = some v ∧
      (∀ y, y ≠ k → y ≠ tk → valOf c'.map y = valOf c.map y) := by
  have hcont : mapContains c.map k = false := by
    cases hb : mapContains c.map k with
    | false => rfl
    | true => exact absurd ((hw.mem_iff k).mpr hb) hk
  have htk : c.tail = some tk := by rw [hw.tailEq, List.getLast?_concat]
  obtain ⟨hnd1, _, htknl3, _, _⟩ := nodup_middle_facts hw.nodup
  have hknl3 : k ∉ l3 := fun hc => hk (List.mem_append_left _ hc)
  have hktk : k ≠ tk := fun hc =>
    hk (by rw [hc]; exact List.mem_append_right _ (List.mem_singleton_self tk))
  obtain ⟨c1, hrun1, hcap1, hhead1, htail1, hkeys1, hval1, hchain1⟩ :=
    remove_node_spec c l3 [] tk hw.nodup hw.links hw.headEq hw.tailEq
  rw [List.append_nil] at hhead1 htail1 hchain1
  have hkeysR : keysOf (mapRemove c1.map tk) = (keysOf c.map).erase tk := by
    rw [keysOf_mapRemove, hkeys1]
  have hchainR : chainSeg (mapRemove c1.map tk) none l3 none = true := by
    rw [chainSeg_congr (m := c1.map) _ none none]
    · exact hchain1
    · intro a ha
      exact mapGet_mapRemove_ne (fun hc => htknl3 (hc ▸ ha))
  have hknR : k ∉ keysOf (mapRemove c1.map tk) := by
    rw [hkeysR]
    intro hc
    exact hk ((hw.mem_iff k).mpr ((mapContains_iff_mem_keysOf _ _).mpr
      (List.mem_of_mem_erase hc)))
  have hcontR : mapContains (mapRemove c1.map tk) k = false := by
    cases hb : mapContains (mapRemove c1.map tk) k with
    | false => rfl
    | true => exact absurd ((mapContains_iff_mem_keysOf _ _).mp hb) hknR
  have hcont2 : mapContains (mapInsert (mapRemove c1.map tk) k (v, Node.mk none none))
      k = true := by
    simp [mapContains, mapGet_mapInsert]
  have hchain2 : chainSeg (mapInsert (mapRemove c1.map tk) k (v, Node.mk none none))
      none l3 none = true := by
    rw [chainSeg_congr (m := mapRemove c1.map tk) _ none none]
    · exact hchainR
    · intro a ha
      rw [mapGet_mapInsert]
      have : ¬ (a = k) := fun hc => hknl3 (hc ▸ ha)
      simp [this]
  obtain ⟨c3, hrun3, hcap3, hhead3, htail3, hkeys3, hval3, hchain3⟩ :=
    add_to_head_spec { c1 with
        map := mapInsert (mapRemove c1.map tk) k (v, Node.mk none none) }
      l3 k hcont2 hknl3 hnd1 hchain2 hhead1 htail1
  have hkeysAll : keysOf c3.map = (keysOf c.map).erase tk ++ [k] := by
    rw [hkeys3]
    show keysOf (mapInsert (mapRemove c1.map tk) k (v, Node.mk none none))
      = (keysOf c.map).erase tk ++ [k]
    rw [keysOf_mapInsert_of_not_contains hcontR, hkeysR]
  have htkmemc : tk ∈ keysOf c.map :=
    (mapContains_iff_mem_keysOf _ _).mp
      ((hw.mem_iff tk).mp (List.mem_append_right _ (List.mem_singleton_self tk)))
  have heraseL : (l3 ++ [tk]).erase tk = l3 := by
    rw [List.erase_append_right _ htknl3, List.erase_cons_head, List.append_nil]
  refine ⟨c3, ?_, ?_, hcap3.trans hcap1, ?_, ?_, ?_, ?_⟩
  · simp only [put, hcont, Bool.false_eq_true, if_false, hlen, if_pos rfl,
      remove_tail, htk, hrun1, Option.some_bind]
    exact hrun3
  · refine ⟨List.nodup_cons.mpr ⟨hknl3, hnd1⟩, ?_, hhead3, htail3, hchain3⟩
    rw [hkeysAll]
    refine (List.perm_append_singleton k _).trans (List.Perm.cons k ?_)
    have := hw.perm.erase tk
    rw [heraseL] at this
    exact this
  · rw [← keysOf_length, ← keysOf_length, hkeysAll]
    rw [List.length_append, List.length_erase_of_mem htkmemc]
    have hpos : 0 < (keysOf c.map).length := List.length_pos_of_mem htkmemc
    simp
    omega
  · cases hb : mapContains c3.map tk with
    | false => rfl
    | true =>
        have := (mapContains_iff_mem_keysOf _ _).mp hb
        rw [hkeysAll] at this
        rcases List.mem_append.mp this with hmem | hmem
        · exact absurd ((hw.keys_nodup.mem_erase_iff).mp hmem).1 (by simp)
        · exact absurd (List.mem_singleton.mp hmem) (fun hc => hktk hc.symm)
  · rw [hval3 k]
    show valOf (mapInsert (mapRemove c1.map tk) k (v, Node.mk none none)) k = some v
    rw [valOf_mapInsert]
    simp
  · intro y hyk hytk
    rw [hval3 y]
    show valOf (mapInsert (mapRemove c1.map tk) k (v, Node.mk none none)) y = valOf c.map y
    rw [valOf_mapInsert]
    simp only [hyk, if_false]
    rw [valOf_mapRemove_ne hytk]
    exact hval1 y

/-! ### Specification of `get` -/

theorem get_miss_spec (c : Cache K V) (k : K)
    (h : mapContains c.map k = false) :
    get c k = some (c, none) := by
  simp [get, h]

theorem get_mem_spec (c : Cache K V) (l : List K) (k : K)
    (hw : Wf c l) (hk : k ∈ l) :
    ∃ c' v, get c k = some (c', some v) ∧ valOf c.map k = some v ∧
      Wf c' (k :: l.erase k) ∧
      c'.capacity = c.capacity ∧
      c'.map.length = c.map.length ∧
      c'.head = some k ∧
      (∀ y, valOf c'.map y = valOf c.map y) := by
  obtain ⟨l1, l2, rfl⟩ := List.append_of_mem hk
  have hcont : mapContains c.map k = true := (hw.mem_iff k).mp hk
  obtain ⟨hnd1, hnd2, hknl1, hknl2, hdisj⟩ := nodup_middle_facts hw.nodup
  have herase : (l1 ++ k :: l2).erase k = l1 ++ l2 := by
    rw [List.erase_append_right _ hknl1, List.erase_cons_head]
  have hndmid : (k :: (l1 ++ l2)).Nodup := List.nodup_middle.mp hw.nodup
  have hnd12 : (l1 ++ l2).Nodup := (List.nodup_cons.mp hndmid).2
  have hknl12 : k ∉ l1 ++ l2 := (List.nodup_cons.mp hndmid).1
  obtain ⟨c1, hrun1, hcap1, hhead1, htail1, hkeys1, hval1, hchain1⟩ :=
    remove_node_spec c l1 l2 k hw.nodup hw.links hw.headEq hw.tailEq
  have hcont1 : mapContains c1.map k = true := by
    rw [mapContains_iff_mem_keysOf, hkeys1]
    exact (mapContains_iff_mem_keysOf _ _).mp hcont
  obtain ⟨c3, hrun3, hcap3, hhead3, htail3, hkeys3, hval3, hchain3⟩ :=
    add_to_head_spec c1 (l1 ++ l2) k hcont1 hknl12 hnd12 hchain1 hhead1 htail1
  obtain ⟨v0, hv0⟩ : ∃ v0, valOf c.map k = some v0 := by
    obtain ⟨e, hget⟩ := Option.isSome_iff_exists.mp (by simpa [mapContains] using hcont)
    exact ⟨e.1, by rw [valOf, hget]; rfl⟩
  have hv3 : valOf c3.map k = some v0 := by
    rw [hval3 k, hval1 k, hv0]
  obtain ⟨e3, hg3, he3⟩ : ∃ e3, mapGet c3.map k = some e3 ∧ e3.1 = v0 := by
    unfold valOf at hv3
    cases hg : mapGet c3.map k with
    | none => rw [hg] at hv3; cases hv3
    | some e3 =>
        rw [hg] at hv3
        exact ⟨e3, rfl, by injection hv3⟩
  refine ⟨c3, v0, ?_, hv0, ?_, hcap3.trans hcap1, ?_, hhead3, ?_⟩
  · simp only [get, hcont, if_true, move_to_head, hrun1, Option.some_bind, Option.bind_eq_bind,
      hrun3, hg3]
    rw [he3]
    rfl
  · rw [herase]
    refine ⟨hndmid, ?_, hhead3, htail3, hchain3⟩
    rw [hkeys3, hkeys1]
    exact hw.perm.trans List.perm_middle
  · rw [← keysOf_length, ← keysOf_length, hkeys3, hkeys1]
  · intro y
    rw [hval3 y, hval1 y]

/-! ### Totality and invariant preservation -/

/-- The structural invariant: some recency chain witnesses well-formedness. -/
def Inv (c : Cache K V) : Prop := ∃ l, Wf c l

theorem put_total (c : Cache K V) (k : K) (v : V) (hInv : Inv c) :
    ∃ c', put c k v = some c' ∧ Inv c' ∧ c'.capacity = c.capacity ∧
      (1 ≤ c.capacity → c.map.length ≤ c.capacity → c'.map.length ≤ c.capacity) := by
  obtain ⟨l, hw⟩ := hInv
  by_cases hk : k ∈ l
  · obtain ⟨c', hrun, hw', hcap, hlen, _, _⟩ := put_mem_spec c l k v hw hk
    exact ⟨c', hrun, ⟨_, hw'⟩, hcap, fun _ hle => hlen ▸ hle⟩
  · by_cases hfull : c.map.length = c.capacity
    · cases hl : l with
      | nil =>
          obtain ⟨c', hrun, hw', hcap, hlen, _, _⟩ :=
            put_fresh_spec c l k v hw hk (Or.inr hl)
          refine ⟨c', hrun, ⟨_, hw'⟩, hcap, fun hc1 _ => ?_⟩
          have h0 : c.map.length = 0 := by rw [hw.length_eq, hl]; rfl
          rw [h0] at hfull
          omega
      | cons a rest =>
          have hne : l ≠ [] := by rw [hl]; simp
          have hsplit : l.dropLast ++ [l.getLast hne] = l :=
            List.dropLast_append_getLast hne
          have hw2 : Wf c (l.dropLast ++ [l.getLast hne]) := by rw [hsplit]; exact hw
          have hk2 : k ∉ l.dropLast ++ [l.getLast hne] := by rw [hsplit]; exact hk
          obtain ⟨c', hrun, hw', hcap, hlen, _, _, _⟩ :=
            put_evict_spec c l.dropLast (l.getLast hne) k v hw2 hk2 hfull
          exact ⟨c', hrun, ⟨_, hw'⟩, hcap, fun _ hle => hlen ▸ hle⟩
    · obtain ⟨c', hrun, hw', hcap, hlen, _, _⟩ :=
        put_fresh_spec c l k v hw hk (Or.inl hfull)
      refine ⟨c', hrun, ⟨_, hw'⟩, hcap, fun _ hle => ?_⟩
      rw [hlen]
      omega

theorem get_total (c : Cache K V) (k : K) (hInv : Inv c) :
    ∃ c' r, get c k = some (c', r) ∧ Inv c' ∧ c'.capacity = c.capacity ∧
      c'.map.length = c.map.length := by
  obtain ⟨l, hw⟩ := hInv
  by_cases hk : k ∈ l
  · obtain ⟨c', v, hrun, _, hw', hcap, hlen, _, _⟩ := get_mem_spec c l k hw hk
    exact ⟨c', some v, hrun, ⟨_, hw'⟩, hcap, hlen⟩
  · have hcont : mapContains c.map k = false := by
      cases hb : mapContains c.map k with
      | false => rfl
      | true => exact absurd ((hw.mem_iff k).mpr hb) hk
    exact ⟨c, none, get_miss_spec c k hcont, ⟨l, hw⟩, rfl, rfl⟩

theorem put_inv {c c' : Cache K V} {k : K} {v : V}
    (hInv : Inv c) (h : put c k v = some c') :
    Inv c' ∧ c'.capacity = c.capacity := by
  obtain ⟨c0, hrun, hinv0, hcap0, _⟩ := put_total c k v hInv
  rw [hrun] at h
  injection h with h
  exact h ▸ ⟨hinv0, hcap0⟩

theorem get_inv {c : Cache K V} {p : Cache K V × Option V} {k : K}
    (hInv : Inv c) (h : get c k = some p) :
    Inv p.1 ∧ p.1.capacity = c.capacity := by
  obtain ⟨c0, r0, hrun, hinv0, hcap0, _⟩ := get_total c k hInv
  rw [hrun] at h
  injection h with h
  rw [← h]
  exact ⟨hinv0, hcap0⟩

theorem processLine_total (parseK : List Char → Option K) (parseV : List Char → Option V)
    (c : Cache K V) (line : List Char) (hInv : Inv c) :
    ∃ c', processLine parseK parseV c line = some c' ∧ Inv c' ∧
      c'.capacity = c.capacity := by
  cases h0 : (splitTab line)[0]? with
  | none => exact ⟨c, by simp [processLine, h0], hInv, rfl⟩
  | some kStr =>
      cases h1 : (splitTab line)[1]? with
      | none => exact ⟨c, by simp [processLine, h0, h1], hInv, rfl⟩
      | some vStr =>
          cases hpk : parseK kStr with
          | none => exact ⟨c, by simp [processLine, h0, h1, hpk], hInv, rfl⟩
          | some key =>
              cases hpv : parseV vStr with
              | none => exact ⟨c, by simp [processLine, h0, h1, hpk, hpv], hInv, rfl⟩
              | some value =>
                  obtain ⟨c', hrun, hinv', hcap', _⟩ := put_total c key value hInv
                  exact ⟨c', by simp [processLine, h0, h1, hpk, hpv, hrun], hinv', hcap'⟩

theorem foldl_processLine_total (parseK : List Char → Option K)
    (parseV : List Char → Option V) (lines : List (List Char)) :
    ∀ c : Cache K V, Inv c →
      ∃ c', List.foldlM (processLine parseK parseV) c lines = some c' ∧ Inv c' ∧
        c'.capacity = c.capacity := by
  induction lines with
  | nil => exact fun c h => ⟨c, rfl, h, rfl⟩
  | cons line rest ih =>
      intro c h
      obtain ⟨c1, h1, hinv1, hcap1⟩ := processLine_total parseK parseV c line h
      obtain ⟨c2, h2, hinv2, hcap2⟩ := ih c1 hinv1
      refine ⟨c2, ?_, hinv2, hcap2.trans hcap1⟩
      simp only [List.foldlM_cons, h1, Option.bind_eq_bind, Option.some_bind]
      exact h2

theorem load_total (parseK : List Char → Option K) (parseV : List Char → Option V)
    (c : Cache K V) (contents : Option (List (List Char))) (hInv : Inv c) :
    ∃ c', load_from_file parseK parseV c contents = some c' ∧ Inv c' ∧
      c'.capacity = c.capacity := by
  cases contents with
  | none => exact ⟨c, rfl, hInv, rfl⟩
  | some lines => exact foldl_processLine_total parseK parseV lines c hInv

/-- States reachable from `Cache::new` through the public operations
(`put`, `get`, `load_from_file`). -/
inductive Reach (parseK : List Char → Option K) (parseV : List Char → Option V) :
    Cache K V → Prop
  | new (capacity : Nat) : Reach parseK parseV (Cache.new K V capacity)
  | put {c c' : Cache K V} {k : K} {v : V} :
      Reach parseK parseV c → put c k v = some c' → Reach parseK parseV c'
  | get {c : Cache K V} {p : Cache K V × Option V} {k : K} :
      Reach parseK parseV c → get c k = some p → Reach parseK parseV p.1
  | load {c c' : Cache K V} {contents : Option (List (List Char))} :
      Reach parseK parseV c → load_from_file parseK parseV c contents = some c' →
      Reach parseK parseV c'

theorem inv_of_reach {parseK : List Char → Option K} {parseV : List Char → Option V}
    {c : Cache K V} (h : Reach parseK parseV c) : Inv c := by
  induction h with
  | new capacity => exact ⟨[], Wf_new capacity⟩
  | put _ hstep ih => exact (put_inv ih hstep).1
  | get _ hstep ih => exact (get_inv ih hstep).1
  | load hr hstep ih =>
      obtain ⟨c0, hrun, hinv0, _⟩ := load_total _ _ _ _ ih
      rw [hrun] at hstep
      injection hstep with hstep
      exact hstep ▸ hinv0

/-! ### Sequences of `put` calls -/

/-- A finite sequence of `put` calls, applied in order. -/
def runPuts (c : Cache K V) : List (K × V) → Option (Cache K V)
  | [] => some c
  | q :: ps => do
      let c' ← put c q.1 q.2
      runPuts c' ps

theorem runPuts_load :
    ∀ (ps : List (K × V)) (c : Cache K V) (l : List K), Wf c l →
    (ps.map Prod.fst).Nodup →
    (∀ q ∈ ps, q.1 ∉ l) →
    c.map.length + ps.length ≤ c.capacity →
    ∃ c' l', runPuts c ps = some c' ∧ Wf c' l' ∧ c'.capacity = c.capacity ∧
      c'.map.length = c.map.length + ps.length ∧
      (∀ q ∈ ps, valOf c'.map q.1 = some q.2) ∧
      (∀ y, y ∉ ps.map Prod.fst → valOf c'.map y = valOf c.map y) := by
  intro ps
  induction ps with
  | nil =>
      intro c l hw _ _ _
      exact ⟨c, l, rfl, hw, rfl, by simp, by simp, fun y _ => rfl⟩
  | cons q rest ih =>
      intro c l hw hnd hfresh hcap
      have hk : q.1 ∉ l := hfresh q (List.mem_cons_self _ _)
      have hcap' : c.map.length + (rest.length + 1) ≤ c.capacity := by
        simpa using hcap
      have hlt : c.map.length ≠ c.capacity := by omega
      obtain ⟨c1, hrun1, hw1, hcap1, hlen1, hvk, hvother⟩ :=
        put_fresh_spec c l q.1 q.2 hw hk (Or.inl hlt)
      have hndc : (q.1 :: rest.map Prod.fst).Nodup := by simpa using hnd
      have hnd' : (rest.map Prod.fst).Nodup := (List.nodup_cons.mp hndc).2
      have hq1rest : q.1 ∉ rest.map Prod.fst := (List.nodup_cons.mp hndc).1
      have hfresh' : ∀ r ∈ rest, r.1 ∉ q.1 :: l := by
        intro r hr
        simp only [List.mem_cons]
        push_neg
        constructor
        · intro hc
          exact hq1rest (hc ▸ List.mem_map_of_mem Prod.fst hr)
        · exact hfresh r (List.mem_cons_of_mem _ hr)
      have hcap2 : c1.map.length + rest.length ≤ c1.capacity := by
        rw [hlen1, hcap1]
        omega
      obtain ⟨c2, l2, hrun2, hw2, hcapF, hlen2, hvals2, hother2⟩ :=
        ih c1 (q.1 :: l) hw1 hnd' hfresh' hcap2
      refine ⟨c2, l2, ?_, hw2, hcapF.trans hcap1, ?_, ?_, ?_⟩
      · simp only [runPuts, hrun1, Option.bind_eq_bind, Option.some_bind]
        exact hrun2
      · rw [hlen2, hlen1, List.length_cons]
        omega
      · intro r hr
        rcases List.mem_cons.mp hr with hr' | hr'
        · rw [hr']
          rw [hother2 q.1 hq1rest, hvk]
        · exact hvals2 r hr'
      · intro y hy
        have hy1 : y ∉ rest.map Prod.fst := fun hc =>
          hy (by simp only [List.map_cons]; exact List.mem_cons_of_mem _ hc)
        have hyq : y ≠ q.1 := fun hc =>
          hy (by simp only [List.map_cons]; rw [hc]; exact List.mem_cons_self _ _)
        rw [hother2 y hy1, hvother y hyq]

theorem runPuts_growth :
    ∀ (ps : List (K × V)) (c : Cache K V) (l : List K), Wf c l →
    c.capacity = 0 →
    (ps.map Prod.fst).Nodup →
    (∀ q ∈ ps, q.1 ∉ l) →
    ∃ c' l', runPuts c ps = some c' ∧ Wf c' l' ∧ c'.capacity = 0 ∧
      c'.map.length = c.map.length + ps.length := by
  intro ps
  induction ps with
  | nil =>
      intro c l hw hcap0 _ _
      exact ⟨c, l, rfl, hw, hcap0, by simp⟩
  | cons q rest ih =>
      intro c l hw hcap0 hnd hfresh
      have hk : q.1 ∉ l := hfresh q (List.mem_cons_self _ _)
      have hside : c.map.length ≠ c.capacity ∨ l = [] := by
        cases hl : l with
        | nil => exact Or.inr rfl
        | cons a t =>
            refine Or.inl ?_
            rw [hw.length_eq, hcap0, hl]
            simp
      obtain ⟨c1, hrun1, hw1, hcap1, hlen1, _, _⟩ :=
        put_fresh_spec c l q.1 q.2 hw hk hside
      have hndc : (q.1 :: rest.map Prod.fst).Nodup := by simpa using hnd
      have hnd' : (rest.map Prod.fst).Nodup := (List.nodup_cons.mp hndc).2
      have hq1rest : q.1 ∉ rest.map Prod.fst := (List.nodup_cons.mp hndc).1
      have hfresh' : ∀ r ∈ rest, r.1 ∉ q.1 :: l := by
        intro r hr
        simp only [List.mem_cons]
        push_neg
        constructor
        · intro hc
          exact hq1rest (hc ▸ List.mem_map_of_mem Prod.fst hr)
        · exact hfresh r (List.mem_cons_of_mem _ hr)
      obtain ⟨c2, l2, hrun2, hw2, hcapF, hlen2⟩ :=
        ih c1 (q.1 :: l) hw1 (hcap1.trans hcap0) hnd' hfresh'
      refine ⟨c2, l2, ?_, hw2, hcapF, ?_⟩
      · simp only [runPuts, hrun1, Option.bind_eq_bind, Option.some_bind]
        exact hrun2
      · rw [hlen2, hlen1, List.length_cons]
        omega

/-! ### Line splitting and the load loop -/

theorem splitTab_no_tab {s : List Char} (h : '\t' ∉ s) : splitTab s = [s] := by
  induction s with
  | nil => rfl
  | cons ch rest ih =>
      have hch : ¬ (ch = '\t') := fun hc => h (hc ▸ List.mem_cons_self _ _)
      have hrest : '\t' ∉ rest := fun hc => h (List.mem_cons_of_mem _ hc)
      simp [splitTab, hch, ih hrest]

theorem splitTab_append {a : List Char} (b : List Char) (ha : '\t' ∉ a) :
    splitTab (a ++ '\t' :: b) = a :: splitTab b := by
  induction a with
  | nil => simp [splitTab]
  | cons ch rest ih =>
      have hch : ¬ (ch = '\t') := fun hc => ha (hc ▸ List.mem_cons_self _ _)
      have hrest : '\t' ∉ rest := fun hc => ha (List.mem_cons_of_mem _ hc)
      simp [splitTab, hch, ih hrest]

theorem processLine_pair (parseK : List Char → Option K) (parseV : List Char → Option V)
    (c : Cache K V) (a b : List Char) (k : K) (v : V)
    (ha : '\t' ∉ a) (hb : '\t' ∉ b)
    (hpk : parseK a = some k) (hpv : parseV b = some v) :
    processLine parseK parseV c (a ++ '\t' :: b) = put c k v := by
  have hsplit : splitTab (a ++ '\t' :: b) = [a, b] := by
    rw [splitTab_append b ha, splitTab_no_tab hb]
  simp [processLine, hsplit, hpk, hpv]

theorem foldl_processLine_eq_runPuts (parseK : List Char → Option K)
    (parseV : List Char → Option V) (showK : K → List Char) (showV : V → List Char) :
    ∀ ps : List (K × V),
      (∀ q ∈ ps, '\t' ∉ showK q.1 ∧ '\t' ∉ showV q.2 ∧
        parseK (showK q.1) = some q.1 ∧ parseV (showV q.2) = some q.2) →
      ∀ c : Cache K V,
        List.foldlM (processLine parseK parseV) c
          (ps.map (fun q => showK q.1 ++ '\t' :: showV q.2)) = runPuts c ps := by
  intro ps
  induction ps with
  | nil => intro _ c; rfl
  | cons q rest ih =>
      intro hgood c
      obtain ⟨ha, hb, hpk, hpv⟩ := hgood q (List.mem_cons_self _ _)
      have hgr := fun r hr => hgood r (List.mem_cons_of_mem _ hr)
      rw [List.map_cons, List.foldlM_cons,
        processLine_pair parseK parseV c _ _ _ _ ha hb hpk hpv]
      show (put c q.1 q.2).bind _ = runPuts c (q :: rest)
      rw [runPuts]
      cases hput : put c q.1 q.2 with
      | none => rfl
      | some c1 =>
          simp only [Option.some_bind, Option.bind_eq_bind]
          exact ih hgr c1

/-! ### Structural consequences of well-formedness -/

theorem Wf.head_none_iff {c : Cache K V} {l : List K} (h : Wf c l) :
    c.head = none ↔ c.map = [] := by
  rw [h.headEq]
  constructor
  · intro hh
    have hl : l = [] := by
      cases l with
      | nil => rfl
      | cons a t => cases hh
    rw [hl] at h
    have hkeys : keysOf c.map = [] := h.perm.eq_nil
    cases hm : c.map with
    | nil => rfl
    | cons e r =>
        rw [hm] at hkeys
        cases hkeys
  · intro hm
    have hkeys : keysOf c.map = [] := by rw [hm]; rfl
    have hl : l = [] := (hkeys ▸ h.perm).symm.eq_nil
    rw [hl]
    rfl

theorem Wf.tail_none_iff {c : Cache K V} {l : List K} (h : Wf c l) :
    c.tail = none ↔ c.map = [] := by
  rw [h.tailEq]
  constructor
  · intro hh
    have hl : l = [] := List.getLast?_eq_none_iff.mp hh
    rw [hl] at h
    have hkeys : keysOf c.map = [] := h.perm.eq_nil
    cases hm : c.map with
    | nil => rfl
    | cons e r =>
        rw [hm] at hkeys
        cases hkeys
  · intro hm
    have hkeys : keysOf c.map = [] := by rw [hm]; rfl
    have hl : l = [] := (hkeys ▸ h.perm).symm.eq_nil
    rw [hl]
    rfl

theorem Wf.head_prev {c : Cache K V} {l : List K} (h : Wf c l) {hk : K}
    (hh : c.head = some hk) :
    ∃ v nd, mapGet c.map hk = some (v, nd) ∧ nd.prev = none := by
  rw [h.headEq] at hh
  cases l with
  | nil => cases hh
  | cons a rest =>
      have ha : a = hk := by injection hh
      subst ha
      have hlinks := h.links
      cases rest with
      | nil =>
          obtain ⟨v, nd, hget, hp, _⟩ := (chainSeg_singleton_iff _ _ _ _).mp hlinks
          exact ⟨v, nd, hget, hp⟩
      | cons b r =>
          obtain ⟨v, nd, hget, hp, _, _⟩ := (chainSeg_cons_cons_iff _ _ _ _ _ _).mp hlinks
          exact ⟨v, nd, hget, hp⟩

theorem Wf.tail_next {c : Cache K V} {l : List K} (h : Wf c l) {tk : K}
    (ht : c.tail = some tk) :
    ∃ v nd, mapGet c.map tk = some (v, nd) ∧ nd.next = none := by
  rw [h.tailEq] at ht
  have hne : l ≠ [] := by
    intro hc
    rw [hc] at ht
    cases ht
  have hsplit : l.dropLast ++ [l.getLast hne] = l := List.dropLast_append_getLast hne
  have htk : l.getLast hne = tk := by
    have := List.getLast?_eq_getLast l hne
    rw [this] at ht
    injection ht
  have hlinks := h.links
  rw [← hsplit, chainSeg_append_cons, Bool.and_eq_true] at hlinks
  obtain ⟨_, hs2⟩ := hlinks
  obtain ⟨v, nd, hget, _, hn⟩ := (chainSeg_singleton_iff _ _ _ _).mp hs2
  rw [htk] at hget
  exact ⟨v, nd, hget, hn⟩

theorem Wf.refs_closed {c : Cache K V} {l : List K} (h : Wf c l) (x : K) (v : V)
    (nd : Node K) (hget : mapGet c.map x = some (v, nd)) :
    (∀ p, nd.prev = some p → mapContains c.map p = true) ∧
    (∀ n, nd.next = some n → mapContains c.map n = true) := by
  have hx : x ∈ l := (h.mem_iff x).mpr (by simp [mapContains, hget])
  obtain ⟨l1, l2, rfl⟩ := List.append_of_mem hx
  have hlinks := h.links
  rw [chainSeg_append_cons, Bool.and_eq_true] at hlinks
  obtain ⟨hs1, hs2⟩ := hlinks
  have hfacts : nd.prev = endPrev none l1 ∧ nd.next = l2.head? := by
    cases l2 with
    | nil =>
        obtain ⟨v', nd', hget', hp, hn⟩ := (chainSeg_singleton_iff _ _ _ _).mp hs2
        rw [hget] at hget'
        injection hget' with hget'
        injection hget' with hv hn'
        rw [hn']
        exact ⟨hp, hn⟩
    | cons k2 l2' =>
        obtain ⟨v', nd', hget', hp, hn, _⟩ := (chainSeg_cons_cons_iff _ _ _ _ _ _).mp hs2
        rw [hget] at hget'
        injection hget' with hget'
        injection hget' with hv hn'
        rw [hn']
        exact ⟨hp, hn⟩
  constructor
  · intro p hp
    rw [hfacts.1] at hp
    have hgl : l1.getLast? = some p := by
      unfold endPrev at hp
      cases hg : l1.getLast? with
      | none => rw [hg] at hp; cases hp
      | some z =>
          rw [hg] at hp
          injection hp with hp
          rw [hp]
    have hpmem : p ∈ l1 := List.mem_of_mem_getLast? hgl
    exact ((h.mem_iff p).mp (List.mem_append_left _ hpmem))
  · intro n hn
    rw [hfacts.2] at hn
    have hnmem : n ∈ l2 := by
      cases l2 with
      | nil => cases hn
      | cons a t =>
          have : a = n := by injection hn
          rw [← this]
          exact List.mem_cons_self _ _
    exact ((h.mem_iff n).mp (List.mem_append_right _ (List.mem_cons_of_mem _ hnmem)))

theorem mapContains_of_valOf {m : List (K × V × Node K)} {k : K} {v : V}
    (h : valOf m k = some v) : mapContains m k = true := by
  unfold valOf at h
  unfold mapContains
  cases hg : mapGet m k with
  | none => rw [hg] at h; cases h
  | some e => rfl

theorem getLast?_cons_ne {a : K} {t : List K} (hne : t ≠ []) (hnd : (a :: t).Nodup) :
    (a :: t).getLast? ≠ some a := by
  cases t with
  | nil => exact absurd rfl hne
  | cons b r =>
      rw [List.getLast?_cons_cons]
      intro hc
      exact (List.nodup_cons.mp hnd).1 (List.mem_of_mem_getLast? hc)

theorem runPuts_bound :
    ∀ (ps : List (K × V)) (c : Cache K V), Inv c → 1 ≤ c.capacity →
      c.map.length ≤ c.capacity → ∀ c', runPuts c ps = some c' →
      Inv c' ∧ c'.capacity = c.capacity ∧ c'.map.length ≤ c.capacity := by
  intro ps
  induction ps with
  | nil =>
      intro c hInv h1 hle c' hrun
      injection hrun with hrun
      rw [← hrun]
      exact ⟨hInv, rfl, hle⟩
  | cons q rest ih =>
      intro c hInv h1 hle c' hrun
      obtain ⟨c1, hrun1, hinv1, hcap1, hbound1⟩ := put_total c q.1 q.2 hInv
      rw [runPuts, hrun1] at hrun
      simp only [Option.bind_eq_bind, Option.some_bind] at hrun
      have hle1 : c1.map.length ≤ c1.capacity := by
        rw [hcap1]
        exact hbound1 h1 hle
      have h11 : 1 ≤ c1.capacity := by rw [hcap1]; exact h1
      obtain ⟨hinv', hcap', hle'⟩ := ih c1 hinv1 h11 hle1 c' hrun
      exact ⟨hinv', hcap'.trans hcap1, hcap1 ▸ hle'⟩

/-! ### Concrete fixture caches used by the witnesses -/

/-- The cache `new(2)` after `put 1 10`. -/
def witA : Cache Nat Nat :=
  (put (Cache.new Nat Nat 2) 1 10).getD (Cache.new Nat Nat 0)

/-- The cache `new(2)` after `put 1 10; put 2 20` (full, chain `[2, 1]`). -/
def witB : Cache Nat Nat :=
  (put witA 2 20).getD (Cache.new Nat Nat 0)

/-! ### The claims -/

/-- Claim C1, counterexample: the claim quantifies over every capacity, but for
a cache created by `new(0)` a single `put` leaves the table with one entry,
violating `table.size() <= capacity`. -/
theorem C1_counterexample :
    (put (Cache.new Nat Nat 0) 1 2).map
      (fun c' => decide (c'.map.length ≤ (Cache.new Nat Nat 0).capacity))
      = some false := by
  rfl

/-- Claim C1 (amended): for every capacity ≥ 1 and every finite sequence of
`put` calls starting from `new(capacity)`, after each `put` call completes the
number of entries in the table is at most `capacity` (every prefix of a call
sequence is itself a call sequence, so this bounds every intermediate state). -/
theorem C1_capacity_bound (capacity : Nat) (hcap : 1 ≤ capacity)
    (ps : List (K × V)) (c' : Cache K V)
    (hrun : runPuts (Cache.new K V capacity) ps = some c') :
    c'.map.length ≤ capacity :=
  (runPuts_bound ps (Cache.new K V capacity) ⟨[], Wf_new capacity⟩ hcap
    (Nat.zero_le _) c' hrun).2.2

/-- Witness for C1: a concrete three-`put` run on a capacity-2 cache. -/
theorem C1_capacity_bound_witness :
    1 ≤ 2 ∧
      ((runPuts (Cache.new Nat Nat 2) [(1, 10), (2, 20), (3, 30)]).getD
        (Cache.new Nat Nat 0)).map.length ≤ 2 :=
  ⟨by decide, C1_capacity_bound 2 (by decide) [(1, 10), (2, 20), (3, 30)]
    ((runPuts (Cache.new Nat Nat 2) [(1, 10), (2, 20), (3, 30)]).getD
      (Cache.new Nat Nat 0)) (by decide)⟩

/-- Claim C2: on a full well-formed cache of capacity ≥ 1, a `put` of a fresh
key evicts exactly the current tail (the least-recently-touched key) and no
other key, keeping the table at capacity; and the concrete capacity-2 scenario
`put(1,10); put(2,20); get(1); put(3,30)` then `get(2) = none, get(3) = 30`
holds. -/
theorem C2_eviction_order (c : Cache K V) (l : List K) (k : K) (v : V)
    (hw : Wf c l) (hcap : 1 ≤ c.capacity) (hfull : c.map.length = c.capacity)
    (hk : k ∉ l) :
    (∃ tk c', c.tail = some tk ∧ put c k v = some c' ∧
      mapContains c'.map tk = false ∧
      valOf c'.map k = some v ∧
      (∀ y, y ≠ k → y ≠ tk → valOf c'.map y = valOf c.map y) ∧
      c'.map.length = c.capacity) ∧
    (do
      let cA ← put (Cache.new Nat Nat 2) 1 10
      let cB ← put cA 2 20
      let pC ← get cB 1
      let cD ← put pC.1 3 30
      let pE ← get cD 2
      let pF ← get pE.1 3
      pure (pE.2, pF.2)) = some (none, some 30) := by
  constructor
  · have hne : l ≠ [] := by
      intro hc
      have h0 : c.map.length = 0 := by rw [hw.length_eq, hc]; rfl
      omega
    have hsplit : l.dropLast ++ [l.getLast hne] = l := List.dropLast_append_getLast hne
    have hw2 : Wf c (l.dropLast ++ [l.getLast hne]) := by rw [hsplit]; exact hw
    have hk2 : k ∉ l.dropLast ++ [l.getLast hne] := by rw [hsplit]; exact hk
    obtain ⟨c', hrun, hw', hcapEq, hlen, hgone, hvk, hother⟩ :=
      put_evict_spec c l.dropLast (l.getLast hne) k v hw2 hk2 hfull
    refine ⟨l.getLast hne, c', ?_, hrun, hgone, hvk,
      fun y hy1 hy2 => hother y hy1 hy2, ?_⟩
    · rw [hw.tailEq, List.getLast?_eq_getLast l hne]
    · rw [hlen, hfull]
  · decide

/-- Witness for C2: the capacity-2 scenario, through the theorem applied to the
concrete full cache `witB` with chain `[2, 1]`. -/
theorem C2_eviction_order_witness :
    (do
      let cA ← put (Cache.new Nat Nat 2) 1 10
      let cB ← put cA 2 20
      let pC ← get cB 1
      let cD ← put pC.1 3 30
      let pE ← get cD 2
      let pF ← get pE.1 3
      pure (pE.2, pF.2)) = some (none, some 30) :=
  (C2_eviction_order witB [2, 1] 3 30 (by decide) (by decide) (by decide)
    (by decide)).2

/-- Claim C3: every state reachable from `new` through `put`, `get` and
`load_from_file` carries a recency chain `l` realizing the full structural
invariant (`Wf`): the `prev`/`next` links form one linear chain from `head` to
`tail` visiting each table key exactly once; moreover `head`/`tail` are absent
exactly when the table is empty, the head entry has no `prev`, the tail entry
has no `next`, and every `prev`/`next` reference names a key in the table. -/
theorem C3_chain_invariant (parseK : List Char → Option K)
    (parseV : List Char → Option V) (c : Cache K V) (h : Reach parseK parseV c) :
    ∃ l, Wf c l ∧
      (c.head = none ↔ c.map = []) ∧
      (c.tail = none ↔ c.map = []) ∧
      (∀ hk, c.head = some hk →
        ∃ v nd, mapGet c.map hk = some (v, nd) ∧ nd.prev = none) ∧
      (∀ tk, c.tail = some tk →
        ∃ v nd, mapGet c.map tk = some (v, nd) ∧ nd.next = none) ∧
      (∀ x v nd, mapGet c.map x = some (v, nd) →
        (∀ p, nd.prev = some p → mapContains c.map p = true) ∧
        (∀ n, nd.next = some n → mapContains c.map n = true)) := by
  obtain ⟨l, hw⟩ := inv_of_reach h
  exact ⟨l, hw, hw.head_none_iff, hw.tail_none_iff,
    fun hk hh => hw.head_prev hh, fun tk ht => hw.tail_next ht,
    fun x v nd hget => hw.refs_closed x v nd hget⟩

/-- Witness for C3: the reachable two-entry cache `witB` has nonempty table and
present head, consistently with the invariant. -/
theorem C3_chain_invariant_witness :
    witB.head = none ↔ witB.map = [] := by
  have h1 : put (Cache.new Nat Nat 2) 1 10 = some witA := by decide
  have h2 : put witA 2 20 = some witB := by decide
  obtain ⟨l, _, hiff, _⟩ :=
    C3_chain_invariant (fun _ => (none : Option Nat)) (fun _ => (none : Option Nat))
      witB (Reach.put (Reach.put (Reach.new 2) h1) h2)
  exact hiff

/-- Claim C6: `get` on an absent key returns the empty result and leaves the
whole cache state (table, links, head, tail) exactly unchanged. -/
theorem C6_get_miss_frame (c : Cache K V) (k : K)
    (h : mapContains c.map k = false) :
    get c k = some (c, none) :=
  get_miss_spec c k h

/-- Witness for C6: key 5 is absent from the two-entry cache `witB`. -/
theorem C6_get_miss_frame_witness :
    mapContains witB.map 5 = false ∧ get witB 5 = some (witB, none) :=
  ⟨by decide, C6_get_miss_frame witB 5 (by decide)⟩

/-- Claim C9: in every reachable state, no public operation panics: `put`,
`get` and `load_from_file` always return a result, i.e. every internal
`unwrap()` (modelled as an `Option` failure) succeeds. -/
theorem C9_no_panic (parseK : List Char → Option K) (parseV : List Char → Option V)
    (c : Cache K V) (h : Reach parseK parseV c) :
    (∀ k v, (put c k v).isSome = true) ∧
    (∀ k, (get c k).isSome = true) ∧
    (∀ contents, (load_from_file parseK parseV c contents).isSome = true) := by
  have hInv := inv_of_reach h
  refine ⟨?_, ?_, ?_⟩
  · intro k v
    obtain ⟨c', hrun, _⟩ := put_total c k v hInv
    rw [hrun]
    rfl
  · intro k
    obtain ⟨c', r, hrun, _⟩ := get_total c k hInv
    rw [hrun]
    rfl
  · intro contents
    obtain ⟨c', hrun, _⟩ := load_total parseK parseV c contents hInv
    rw [hrun]
    rfl

/-- Witness for C9: a concrete `put` on the reachable cache `witB` succeeds. -/
theorem C9_no_panic_witness :
    (put witB 7 42).isSome = true := by
  have h1 : put (Cache.new Nat Nat 2) 1 10 = some witA := by decide
  have h2 : put witA 2 20 = some witB := by decide
  exact (C9_no_panic (fun _ => (none : Option Nat)) (fun _ => (none : Option Nat)) witB
    (Reach.put (Reach.put (Reach.new 2) h1) h2)).1 7 42

/-- Claim C10: with capacity 0, `put` of fresh keys is never rejected and never
self-evicts: after any duplicate-free sequence of fresh inserts the table holds
exactly all of them, so its size exceeds the capacity 0 and grows without
bound. -/
theorem C10_capacity_zero_growth (ps : List (K × V))
    (hnd : (ps.map Prod.fst).Nodup) :
    ∃ c', runPuts (Cache.new K V 0) ps = some c' ∧ c'.capacity = 0 ∧
      c'.map.length = ps.length ∧
      (1 ≤ ps.length → c'.capacity < c'.map.length) := by
  obtain ⟨c', l', hrun, hw', hcap', hlen'⟩ :=
    runPuts_growth ps (Cache.new K V 0) [] (Wf_new 0) rfl hnd
      (fun q _ => List.not_mem_nil _)
  refine ⟨c', hrun, hcap', ?_, ?_⟩
  · rw [hlen']
    simp [Cache.new]
  · intro h1
    rw [hcap', hlen']
    have : (Cache.new K V 0).map.length = 0 := rfl
    omega

/-- Claim C4: `get` on a present key returns its stored value and promotes it
to head; an immediately repeated `get` returns the same value with the entry
still at head; and the promoted key is protected from the next eviction: when
at least one other key is present, the tail is not the promoted key, and a
subsequent capacity-triggered eviction removes some other key while the
promoted key stays in the table. -/
theorem C4_get_promotes (c : Cache K V) (l : List K) (k : K) (v : V) (nd : Node K)
    (hw : Wf c l) (hget : mapGet c.map k = some (v, nd)) :
    ∃ c', get c k = some (c', some v) ∧
      c'.head = some k ∧
      Wf c' (k :: l.erase k) ∧
      (∃ c'', get c' k = some (c'', some v) ∧ c''.head = some k) ∧
      (2 ≤ l.length → c'.tail ≠ some k) ∧
      (∀ k2 v2, mapContains c'.map k2 = false → c'.map.length = c'.capacity →
        2 ≤ l.length → ∃ c₃, put c' k2 v2 = some c₃ ∧
          mapContains c₃.map k = true) := by
  have hk : k ∈ l := (hw.mem_iff k).mpr (by simp [mapContains, hget])
  have hvOrig : valOf c.map k = some v := by rw [valOf, hget]; rfl
  obtain ⟨c', v0, hrun, hv0, hw', hcap', hlen', hhead', hvals'⟩ := get_mem_spec c l k hw hk
  have hv0v : v0 = v := by
    rw [hvOrig] at hv0
    injection hv0 with h
    exact h.symm
  subst hv0v
  have hvc' : valOf c'.map k = some v0 := by rw [hvals' k]; exact hvOrig
  obtain ⟨c'', v1, hrun2, hv1, _, _, _, hhead'', _⟩ :=
    get_mem_spec c' (k :: l.erase k) k hw' (List.mem_cons_self _ _)
  have hv1v : v1 = v0 := by
    rw [hvc'] at hv1
    injection hv1 with h
    exact h.symm
  subst hv1v
  have herasene : 2 ≤ l.length → l.erase k ≠ [] := by
    intro h2 hc
    have hpos : 0 < (l.erase k).length := by
      rw [List.length_erase_of_mem hk]
      omega
    rw [hc] at hpos
    simp at hpos
  refine ⟨c', hrun, hhead', hw', ⟨c'', hrun2, hhead''⟩, ?_, ?_⟩
  · intro h2
    rw [hw'.tailEq]
    exact getLast?_cons_ne (herasene h2) hw'.nodup
  · intro k2 v2 hk2f hfull2 h2
    have hLne : (k :: l.erase k) ≠ [] := by simp
    have hsplit := List.dropLast_append_getLast hLne
    have hw2 : Wf c' ((k :: l.erase k).dropLast ++ [(k :: l.erase k).getLast hLne]) := by
      rw [hsplit]
      exact hw'
    have hk2mem : k2 ∉ (k :: l.erase k).dropLast ++ [(k :: l.erase k).getLast hLne] := by
      rw [hsplit]
      intro hc
      have := (hw'.mem_iff k2).mp hc
      rw [hk2f] at this
      cases this
    obtain ⟨c₃, hrun3, _, _, _, hgone3, hvk3, hother3⟩ :=
      put_evict_spec c' (k :: l.erase k).dropLast ((k :: l.erase k).getLast hLne)
        k2 v2 hw2 hk2mem hfull2
    have hkk2 : k ≠ k2 := by
      intro hc
      have hck : mapContains c'.map k = true := mapContains_of_valOf hvc'
      rw [hc, hk2f] at hck
      cases hck
    have hktk : k ≠ (k :: l.erase k).getLast hLne := by
      have hgl : (k :: l.erase k).getLast? = some ((k :: l.erase k).getLast hLne) :=
        List.getLast?_eq_getLast _ hLne
      intro hc
      refine getLast?_cons_ne (herasene h2) hw'.nodup ?_
      rw [← hc] at hgl
      exact hgl
    refine ⟨c₃, hrun3, ?_⟩
    have hpres := hother3 k hkk2 hktk
    rw [hvc'] at hpres
    exact mapContains_of_valOf hpres

/-- Witness for C4: promoting key 1 in the concrete two-entry cache `witB`. -/
theorem C4_get_promotes_witness :
    ∃ c', get witB 1 = some (c', some 10) ∧ c'.head = some 1 := by
  obtain ⟨c', hrun, hhead, _⟩ :=
    C4_get_promotes witB [2, 1] 1 10 (Node.mk (some 2) none) (by decide) (by decide)
  exact ⟨c', hrun, hhead⟩

/-- Claim C5: after `put(key, value)` the cache reports no error, `key` sits at
head with stored value `value`; when the key was already present the `put`
overwrites in place: the table size is unchanged, the chain is the old chain
with the key promoted, and every other key keeps its value. -/
theorem C5_put_semantics (c : Cache K V) (l : List K) (k : K) (v : V) (hw : Wf c l) :
    ∃ c', put c k v = some c' ∧
      c'.head = some k ∧
      valOf c'.map k = some v ∧
      (mapContains c.map k = true →
        c'.map.length = c.map.length ∧ Wf c' (k :: l.erase k) ∧
        (∀ y, y ≠ k → valOf c'.map y = valOf c.map y)) := by
  by_cases hk : k ∈ l
  · obtain ⟨c', hrun, hw', hcap, hlen, hvk, hvother⟩ := put_mem_spec c l k v hw hk
    refine ⟨c', hrun, ?_, hvk, fun _ => ⟨hlen, hw', hvother⟩⟩
    rw [hw'.headEq]
    rfl
  · have hcont : mapContains c.map k = false := by
      cases hb : mapContains c.map k with
      | false => rfl
      | true => exact absurd ((hw.mem_iff k).mpr hb) hk
    by_cases hlnil : l = []
    · subst hlnil
      obtain ⟨c', hrun, hw', _, _, hvk, _⟩ :=
        put_fresh_spec c [] k v hw (List.not_mem_nil k) (Or.inr rfl)
      refine ⟨c', hrun, ?_, hvk, ?_⟩
      · rw [hw'.headEq]
        rfl
      · intro hcc
        rw [hcont] at hcc
        cases hcc
    · by_cases hfull : c.map.length = c.capacity
      · have hsplit := List.dropLast_append_getLast hlnil
        have hw2 : Wf c (l.dropLast ++ [l.getLast hlnil]) := by
          rw [hsplit]
          exact hw
        have hk2 : k ∉ l.dropLast ++ [l.getLast hlnil] := by
          rw [hsplit]
          exact hk
        obtain ⟨c', hrun, hw', _, _, _, hvk, _⟩ :=
          put_evict_spec c l.dropLast (l.getLast hlnil) k v hw2 hk2 hfull
        refine ⟨c', hrun, ?_, hvk, ?_⟩
        · rw [hw'.headEq]
          rfl
        · intro hcc
          rw [hcont] at hcc
          cases hcc
      · obtain ⟨c', hrun, hw', _, _, hvk, _⟩ :=
          put_fresh_spec c l k v hw hk (Or.inl hfull)
        refine ⟨c', hrun, ?_, hvk, ?_⟩
        · rw [hw'.headEq]
          rfl
        · intro hcc
          rw [hcont] at hcc
          cases hcc

/-- Witness for C5: overwriting the present key 1 in `witB`. -/
theorem C5_put_semantics_witness :
    Wf witB [2, 1] ∧ (put witB 1 99).isSome = true := by
  refine ⟨by decide, ?_⟩
  obtain ⟨c', hrun, _⟩ := C5_put_semantics witB [2, 1] 1 99 (by decide)
  rw [hrun]
  rfl

/-- The identity parse for `List Char` fields (it never fails, like Rust's
`FromStr` for `String`). -/
def parseId : List Char → Option (List Char) := fun s => some s

/-- Claim C7, counterexample: on the line `"a\tb\tc"` the code stores value
`"b"` (the second tab-separated segment), not `"b\tc"` as splitting on only
the first delimiter occurrence into exactly two fields would give. -/
theorem C7_counterexample :
    (load_from_file parseId parseId (Cache.new (List Char) (List Char) 2)
        (some [['a', '\t', 'b', '\t', 'c']])).map
      (fun c' => valOf c'.map ['a'])
      = some (some ['b']) ∧ (['b'] : List Char) ≠ ['b', '\t', 'c'] := by
  constructor
  · rfl
  · decide

/-- Claim C7 (amended): `load_from_file` on a missing file is a no-op success;
an existing file's lines are replayed in order; each line is split on every tab
and the first two segments (rather than the two sides of the first occurrence:
text after a second tab is dropped) are parsed as the key and value fields; a
line with no tab, or whose key or value field fails to parse, is silently
skipped; each successfully parsed pair goes through the same `put` path as a
live call, so load order determines recency and eviction. -/
theorem C7_load_semantics (parseK : List Char → Option K)
    (parseV : List Char → Option V) (c : Cache K V) :
    load_from_file parseK parseV c none = some c ∧
    (∀ lines, load_from_file parseK parseV c (some lines)
        = lines.foldlM (processLine parseK parseV) c) ∧
    (∀ line, (splitTab line)[1]? = none →
      processLine parseK parseV c line = some c) ∧
    (∀ line kStr vStr, (splitTab line)[0]? = some kStr →
      (splitTab line)[1]? = some vStr → parseK kStr = none →
      processLine parseK parseV c line = some c) ∧
    (∀ line kStr vStr, (splitTab line)[0]? = some kStr →
      (splitTab line)[1]? = some vStr → parseV vStr = none →
      processLine parseK parseV c line = some c) ∧
    (∀ line kStr vStr key value, (splitTab line)[0]? = some kStr →
      (splitTab line)[1]? = some vStr → parseK kStr = some key →
      parseV vStr = some value →
      processLine parseK parseV c line = put c key value) := by
  refine ⟨rfl, fun lines => rfl, ?_, ?_, ?_, ?_⟩
  · intro line h1
    cases h0 : (splitTab line)[0]? with
    | none => simp [processLine, h0]
    | some kStr => simp [processLine, h0, h1]
  · intro line kStr vStr h0 h1 hpk
    simp [processLine, h0, h1, hpk]
  · intro line kStr vStr h0 h1 hpv
    cases hpk : parseK kStr with
    | none => simp [processLine, h0, h1, hpk]
    | some key => simp [processLine, h0, h1, hpk, hpv]
  · intro line kStr vStr key value h0 h1 hpk hpv
    simp [processLine, h0, h1, hpk, hpv]

/-- Witness for C7: a well-formed line is replayed as a live `put`. -/
theorem C7_load_semantics_witness :
    processLine parseId parseId (Cache.new (List Char) (List Char) 2)
        ['x', '\t', 'y']
      = put (Cache.new (List Char) (List Char) 2) ['x'] ['y'] :=
  (C7_load_semantics parseId parseId
      (Cache.new (List Char) (List Char) 2)).2.2.2.2.2
    ['x', '\t', 'y'] ['x'] ['y'] ['x'] ['y'] (by decide) (by decide) rfl rfl

/-- Claim C8: for a well-formed cache within capacity whose keys and values
render to tab-free strings that parse back to themselves, saving (in any
iteration order of the table) and loading into a fresh same-capacity cache
yields a cache where `get` returns the original value for every
originally-present key. -/
theorem C8_round_trip (parseK : List Char → Option K) (parseV : List Char → Option V)
    (showK : K → List Char) (showV : V → List Char)
    (c : Cache K V) (l : List K) (entries : List (K × V × Node K))
    (hw : Wf c l)
    (hlen : c.map.length ≤ c.capacity)
    (hperm : entries.Perm c.map)
    (hgood : ∀ e ∈ c.map, '\t' ∉ showK e.1 ∧ '\t' ∉ showV e.2.1 ∧
      parseK (showK e.1) = some e.1 ∧ parseV (showV e.2.1) = some e.2.1) :
    (entries.map (fun e => showK e.1 ++ '\t' :: showV e.2.1)).Perm
        (save_lines showK showV c) ∧
    ∃ c₂, load_from_file parseK parseV (Cache.new K V c.capacity)
        (some (entries.map (fun e => showK e.1 ++ '\t' :: showV e.2.1))) = some c₂ ∧
      ∀ k v nd, (k, v, nd) ∈ c.map → ∃ c₃, get c₂ k = some (c₃, some v) := by
  constructor
  · exact hperm.map _
  · set ps := entries.map (fun e => (e.1, e.2.1)) with hps
    have hlines : entries.map (fun e => showK e.1 ++ '\t' :: showV e.2.1)
        = ps.map (fun q => showK q.1 ++ '\t' :: showV q.2) := by
      rw [hps, List.map_map]
      rfl
    have hgood' : ∀ q ∈ ps, '\t' ∉ showK q.1 ∧ '\t' ∉ showV q.2 ∧
        parseK (showK q.1) = some q.1 ∧ parseV (showV q.2) = some q.2 := by
      intro q hq
      rw [hps] at hq
      obtain ⟨e, he, rfl⟩ := List.mem_map.mp hq
      exact hgood e (hperm.mem_iff.mp he)
    have hkeys : ps.map Prod.fst = keysOf entries := by
      rw [hps, List.map_map]
      rfl
    have hndps : (ps.map Prod.fst).Nodup := by
      rw [hkeys]
      have hpk : (keysOf entries).Perm (keysOf c.map) := hperm.map _
      exact hpk.nodup_iff.mpr hw.keys_nodup
    have hlenps : ps.length = c.map.length := by
      rw [hps, List.length_map, hperm.length_eq]
    obtain ⟨c₂, l₂, hrun2, hw₂, hcap₂, hlen₂, hvals₂, _⟩ :=
      runPuts_load ps (Cache.new K V c.capacity) [] (Wf_new _) hndps
        (fun q _ => List.not_mem_nil _)
        (by
          have h0 : (Cache.new K V c.capacity).map.length = 0 := rfl
          have hc : (Cache.new K V c.capacity).capacity = c.capacity := rfl
          rw [h0, hc, hlenps]
          omega)
    refine ⟨c₂, ?_, ?_⟩
    · have hfold : List.foldlM (processLine parseK parseV) (Cache.new K V c.capacity)
          (ps.map (fun q => showK q.1 ++ '\t' :: showV q.2)) = some c₂ := by
        rw [foldl_processLine_eq_runPuts parseK parseV showK showV ps hgood'
          (Cache.new K V c.capacity)]
        exact hrun2
      rw [hlines]
      exact hfold
    · intro k v nd hmem
      have hentry : (k, v, nd) ∈ entries := hperm.mem_iff.mpr hmem
      have hqmem : (k, v) ∈ ps := by
        rw [hps]
        exact List.mem_map.mpr ⟨(k, v, nd), hentry, rfl⟩
      have hvk : valOf c₂.map k = some v := hvals₂ (k, v) hqmem
      have hkl₂ : k ∈ l₂ := (hw₂.mem_iff k).mpr (mapContains_of_valOf hvk)
      obtain ⟨c₃, v1, hrun3, hv1, _, _, _, _, _⟩ := get_mem_spec c₂ l₂ k hw₂ hkl₂
      have hv1v : v1 = v := by
        rw [hvk] at hv1
        injection hv1 with h
        exact h.symm
      subst hv1v
      exact ⟨c₃, hrun3⟩

/-- Unary rendering of a natural number, for the round-trip witness. -/
def showN : Nat → List Char := fun n => List.replicate n 'x'

/-- Parse back of the unary rendering. -/
def parseN : List Char → Option Nat :=
  fun s => if s.all (fun ch => ch = 'x') then some s.length else none

/-- Witness for C8: the two-entry cache `witB` with unary rendering. -/
theorem C8_round_trip_witness :
    ((witB.map).map (fun e => showN e.1 ++ '\t' :: showN e.2.1)).Perm
      (save_lines showN showN witB) :=
  (C8_round_trip parseN parseN showN showN witB [2, 1] witB.map (by decide)
    (by decide) (by decide) (by decide)).1

/-- Witness for C10: two distinct keys into a capacity-0 cache give size 2. -/
theorem C10_capacity_zero_growth_witness :
    ∃ c', runPuts (Cache.new Nat Nat 0) [(1, 10), (2, 20)] = some c' ∧
      c'.capacity = 0 ∧ c'.map.length = 2 ∧
      (1 ≤ 2 → c'.capacity < c'.map.length) :=
  C10_capacity_zero_growth [(1, 10), (2, 20)] (by decide)

end LRU
